import Mathlib

set_option maxRecDepth 8192

/-!
Verification development for the AutomatedChecksumVerification browser
extension.  The embedded code comes from `src/scripts/content.js` and the
near-duplicate variant `src/unnamed/part_000`: the checksum-value and
algorithm-name extraction (regex scanning plus canonicalization), the
candidate filter with its optional diversity check, the per-algorithm
verification loop of `verifyFile` in both variants, the byte-to-word packing
of `processChunk`, and the chunked `computeHash` driver.  The CryptoJS
hashing primitive is an external library that is not part of the repository;
its incremental-accumulator contract and the SHA-256 function are modelled
from the specification where needed.
-/

/-! ### Character classes

The classes below are the character sets of the regexes in
`src/scripts/content.js` line 1 (`REGEXP_CHECKSUM_VALUE`, the two
alternatives `[a-f0-9]` and `[A-F0-9]`) and of `hasMix` (lines 72-76:
`[a-f]|[A-F]` and `[0-9]`).  Characters are compared through their code
points. -/

/-- Membership in the lowercase alternative `[a-f0-9]` of the checksum-value
regex. -/
def isLcHexB (c : Char) : Bool :=
  decide ((97 ≤ c.toNat ∧ c.toNat ≤ 102) ∨ (48 ≤ c.toNat ∧ c.toNat ≤ 57))

/-- Membership in the uppercase alternative `[A-F0-9]` of the checksum-value
regex. -/
def isUcHexB (c : Char) : Bool :=
  decide ((65 ≤ c.toNat ∧ c.toNat ≤ 70) ∨ (48 ≤ c.toNat ∧ c.toNat ≤ 57))

/-- Case-insensitive hexadecimal character (the union of both alternatives);
used by the specification model of the extraction pattern. -/
def isCiHexB (c : Char) : Bool := isLcHexB c || isUcHexB c

/-- Alphabetic hex character of either case, the class `[a-f]|[A-F]` tested
by `hasMix`. -/
def isHexLetterB (c : Char) : Bool :=
  decide ((97 ≤ c.toNat ∧ c.toNat ≤ 102) ∨ (65 ≤ c.toNat ∧ c.toNat ≤ 70))

/-- Decimal digit, the class `[0-9]` tested by `hasMix`. -/
def isDigitB (c : Char) : Bool := decide (48 ≤ c.toNat ∧ c.toNat ≤ 57)

/-- Absence of uppercase hex letters `A`-`F` in a character list.  Texts with
this property exercise only the lowercase alternative of the checksum-value
regex. -/
def noUpperHexB (s : List Char) : Bool :=
  s.all fun c => !(decide (65 ≤ c.toNat ∧ c.toNat ≤ 70))

/-! ### Small utilities shared by the embedded functions -/

/-- Removal of the first occurrence of a character, the semantics of the
JavaScript call `str.replace(c, "")` with a plain-string pattern (only the
first occurrence is replaced). -/
def removeFirst (c : Char) : List Char → List Char
  | [] => []
  | x :: xs => if x = c then xs else x :: removeFirst c xs

/-- Insertion into a JavaScript `Set` modelled as a duplicate-free list in
insertion order: `add` appends the element only when it is not yet present. -/
def setAdd {α : Type} [DecidableEq α] (l : List α) (a : α) : List α :=
  if a ∈ l then l else l ++ [a]

/-- Number of occurrences of a character in a list; used to state how many
hyphens and spaces an algorithm mention contains. -/
def countCh (c : Char) (l : List Char) : Nat :=
  (l.filter fun x => decide (x = c)).length

/-! ### Checksum-value extraction (content.js lines 38-63)

The loop `while ((r = pattern.exec(elem.innerText)) !== null)` applies the
global regex `REGEXP_CHECKSUM_VALUE = [a-f0-9]+ of length at least 32, or
[A-F0-9]+ of length at least 32` repeatedly to a text.  At each start
position the engine first tries the lowercase alternative (greedy, with
nothing following the quantifier, so it takes the maximal run), then the
uppercase alternative, and on failure advances one character; on success it
continues right after the match.  Each match is added to a `Set` after
`toLowerCase().replace(hyphen, "")`. -/

/-- Stepper for the match sequence of `REGEXP_CHECKSUM_VALUE`.  The fuel
argument only drives termination in Lean; every step either consumes a whole
match or advances one position, so `s.length` fuel always suffices (the
JavaScript loop terminates because `lastIndex` strictly advances). -/
def jsScanGo : Nat → List Char → List (List Char)
  | 0, _ => []
  | _ + 1, [] => []
  | fuel + 1, c :: rest =>
    if 32 ≤ (List.takeWhile isLcHexB (c :: rest)).length then
      List.takeWhile isLcHexB (c :: rest) ::
        jsScanGo fuel ((c :: rest).drop (List.takeWhile isLcHexB (c :: rest)).length)
    else if 32 ≤ (List.takeWhile isUcHexB (c :: rest)).length then
      List.takeWhile isUcHexB (c :: rest) ::
        jsScanGo fuel ((c :: rest).drop (List.takeWhile isUcHexB (c :: rest)).length)
    else
      jsScanGo fuel rest

/-- Sequence of matches produced by repeatedly executing
`REGEXP_CHECKSUM_VALUE` on a text, in order of occurrence. -/
def jsScan (s : List Char) : List (List Char) := jsScanGo s.length s

/-- Set of checksum-value candidates extracted from one text, with the
per-match normalization `r[0].toLowerCase().replace(hyphen, "")` of
content.js line 47 and `Set.add` accumulation. -/
def extractChecksumValues (s : List Char) : List (List Char) :=
  ((jsScan s).map fun r => removeFirst '-' (r.map Char.toLower)).foldl setAdd []

/-- Maximal runs of case-insensitive hexadecimal characters of a text, in
order.  This is the specification reading of the checksum-value pattern: a
run of at least 32 hexadecimal characters regardless of letter case, matched
greedily so that a longer hex-like run is captured whole. -/
def ciRunsGo : Nat → List Char → List (List Char)
  | 0, _ => []
  | _ + 1, [] => []
  | fuel + 1, c :: rest =>
    if isCiHexB c then
      List.takeWhile isCiHexB (c :: rest) ::
        ciRunsGo fuel ((c :: rest).drop (List.takeWhile isCiHexB (c :: rest)).length)
    else
      ciRunsGo fuel rest

/-- Wrapper fixing the fuel of `ciRunsGo` to the text length, which always
suffices. -/
def ciRuns (s : List Char) : List (List Char) := ciRunsGo s.length s

/-- Specification-side extraction: every maximal case-insensitive hex run of
length at least 32, lower-cased, accumulated into a set. -/
def specExtractChecksumValues (s : List Char) : List (List Char) :=
  (((ciRuns s).filter fun r => decide (32 ≤ r.length)).map
    fun r => r.map Char.toLower).foldl setAdd []

/-! ### Candidate filtering (content.js lines 72-97, part_000 lines 57-84) -/

/-- Accepted digest lengths, constant `CHECKSUM_VALUE_SIZE` (line 2 of both
variants). -/
def CHECKSUM_VALUE_SIZE : List Nat := [32, 40, 56, 64, 96, 128]

/-- Mixed-content test of content.js lines 72-76: the regex test
`[a-f]|[A-F]` succeeds somewhere in the string and the regex test `[0-9]`
succeeds somewhere in the string. -/
def hasMix (elem : String) : Bool :=
  (elem.toList.any fun c => isHexLetterB c) && (elem.toList.any fun c => isDigitB c)

/-- Diversity test of part_000 lines 57-64: the characters of the string are
inserted into a `Set` and the test succeeds when the set size exceeds the
limit. -/
def diversity (checksum : String) (limit : Nat) : Bool :=
  decide (limit < (checksum.toList.foldl setAdd []).length)

/-- Number of distinct characters of a string, the specification reading of
the diversity requirement. -/
def distinctCount (s : String) : Nat := s.toList.toFinset.card

/-- Filter of content.js lines 87-97: keep the strings of accepted length
that pass `hasMix`, accumulating into a fresh `Set`. -/
def filter (set : List String) : List String :=
  set.foldl
    (fun acc elem =>
      if CHECKSUM_VALUE_SIZE.contains elem.length then
        if hasMix elem then setAdd acc elem else acc
      else acc)
    []

/-- Filter of part_000 lines 72-84: like `filter` but with the additional
`diversity(elem, 10)` requirement. -/
def filterDiversity (set : List String) : List String :=
  set.foldl
    (fun acc elem =>
      if CHECKSUM_VALUE_SIZE.contains elem.length then
        if hasMix elem then
          if diversity elem 10 then setAdd acc elem else acc
        else acc
      else acc)
    []

/-- Generic form of the two filters, used to factor the proofs: fold with a
single boolean acceptance predicate. -/
def filterSet (p : String → Bool) (set : List String) : List String :=
  set.foldl (fun acc elem => if p elem then setAdd acc elem else acc) []

/-! ### Algorithm labels (content.js lines 3, 6-10, 46-48, 436-464) -/

/-- Constant `CHECKSUM_TYPE_MD5` (line 6). -/
def CHECKSUM_TYPE_MD5 : String := "md5"

/-- Constant `CHECKSUM_TYPE_SHA1` (line 7). -/
def CHECKSUM_TYPE_SHA1 : String := "sha1"

/-- Constant `CHECKSUM_TYPE_SHA256` (line 8). -/
def CHECKSUM_TYPE_SHA256 : String := "sha256"

/-- Constant `CHECKSUM_TYPE_SHA384` (line 9). -/
def CHECKSUM_TYPE_SHA384 : String := "sha384"

/-- Constant `CHECKSUM_TYPE_SHA512` (line 10). -/
def CHECKSUM_TYPE_SHA512 : String := "sha512"

/-- Supported checksum algorithms, the enumeration the canonicalized labels
are compared against. -/
inductive ChecksumAlgo : Type
  | md5
  | sha1
  | sha256
  | sha384
  | sha512
deriving DecidableEq

/-- Normalization applied to each algorithm-name match inside
`extractPattern` (content.js line 47): lower-case, then remove the first
hyphen. -/
def canonAlgoMention (m : List Char) : List Char :=
  removeFirst '-' (m.map Char.toLower)

/-- Normalization applied to a declared type inside `verifyFile`
(content.js line 440): lower-case, then remove the first hyphen, then remove
the first space. -/
def canonTypeLabel (t : List Char) : List Char :=
  removeFirst ' ' (removeFirst '-' (t.map Char.toLower))

/-- Specification reading of the canonicalization rule: lower-case the
mention and strip all internal hyphens and spaces. -/
def specCanonMention (m : List Char) : List Char :=
  (m.map Char.toLower).filter fun c => !(decide (c = '-')) && !(decide (c = ' '))

/-- Dispatch of the `switch` statement in `verifyFile` (content.js lines
440-463): an exact match against one of the five constants selects the
algorithm, anything else falls to `default` and is skipped. -/
def parseAlgo (t : List Char) : Option ChecksumAlgo :=
  if t = CHECKSUM_TYPE_MD5.toList then some ChecksumAlgo.md5
  else if t = CHECKSUM_TYPE_SHA1.toList then some ChecksumAlgo.sha1
  else if t = CHECKSUM_TYPE_SHA256.toList then some ChecksumAlgo.sha256
  else if t = CHECKSUM_TYPE_SHA384.toList then some ChecksumAlgo.sha384
  else if t = CHECKSUM_TYPE_SHA512.toList then some ChecksumAlgo.sha512
  else none

/-! ### Verification loop (content.js lines 421-474, part_000 lines 387-432)

The digest computation itself happens in the external hashing primitive, so
the loops are parameterized by a function `H` giving the hex digest of the
file under verification for each supported algorithm.  The `attempts` list
records, in order, every declared type for which an accumulator was created
(`CryptoJS.algo.X.create()`) and the file was hashed. -/

/-- Result of one verification attempt: the `valid` flag, the set of
computed digests, and the algorithms actually attempted. -/
structure VerifyResult : Type where
  valid : Bool
  computed : List String
  attempts : List ChecksumAlgo
deriving DecidableEq

/-- Loop of content.js lines 436-474: canonicalize the declared type, skip
it when unrecognized, otherwise hash the file, add the digest to the
computed set, recompute `valid` as nonemptiness of the intersection of
computed and extracted values, and break on the first match. -/
def verifyFileLoop (H : ChecksumAlgo → String) (actual : List String) :
    List String → List String → Bool → List ChecksumAlgo → VerifyResult
  | [], computed, valid, attempts => ⟨valid, computed, attempts⟩
  | t :: rest, computed, valid, attempts =>
    match parseAlgo (canonTypeLabel t.toList) with
    | none => verifyFileLoop H actual rest computed valid attempts
    | some a =>
      let computed' := setAdd computed (H a)
      let valid' := computed'.any fun x => actual.contains x
      if valid' then ⟨valid', computed', attempts ++ [a]⟩
      else verifyFileLoop H actual rest computed' valid' (attempts ++ [a])

/-- Verification attempt of content.js `verifyFile`: run the loop with an
empty computed set, `valid` initially falsy, and no attempts. -/
def verifyFile (H : ChecksumAlgo → String) (actual : List String)
    (types : List String) : VerifyResult :=
  verifyFileLoop H actual types [] false []

/-- Loop of part_000 lines 399-430: same dispatch, but every declared type
is processed with no early exit. -/
def verifyFilePartLoop (H : ChecksumAlgo → String) :
    List String → List String → List ChecksumAlgo → List String × List ChecksumAlgo
  | [], computed, attempts => (computed, attempts)
  | t :: rest, computed, attempts =>
    match parseAlgo (canonTypeLabel t.toList) with
    | none => verifyFilePartLoop H rest computed attempts
    | some a => verifyFilePartLoop H rest (setAdd computed (H a)) (attempts ++ [a])

/-- Verification attempt of part_000 `verifyFile`: compute every declared
digest, then decide `valid` once after the loop (line 432). -/
def verifyFilePart (H : ChecksumAlgo → String) (actual : List String)
    (types : List String) : VerifyResult :=
  let r := verifyFilePartLoop H types [] []
  ⟨r.1.any fun x => actual.contains x, r.1, r.2⟩

/-! ### Error paths and guaranteed cleanup (content.js lines 421-529)

For claim C8 the whole body of `verifyFile` is modelled with its failure
modes: the explicit `throw` when CryptoJS is missing (line 424), and a
rejected chunk read inside `computeHash`, which the `await` turns into an
exception caught by the `catch` block.  The digest computation is therefore
a fallible function here.  The `finally` block (lines 520-529) reads the
shared `downloads` map, deletes the entry of the current download identifier
when present, and writes the map back; it runs on every terminal path. -/

/-- Fallible version of the verification loop: a digest-computation error
propagates out (the thrown exception aborts the `try` body). -/
def verifyExcLoop (Hc : ChecksumAlgo → Except String String) (actual : List String) :
    List String → List String → Bool → Except String Bool
  | [], _, valid => Except.ok valid
  | t :: rest, computed, valid =>
    match parseAlgo (canonTypeLabel t.toList) with
    | none => verifyExcLoop Hc actual rest computed valid
    | some a =>
      match Hc a with
      | Except.error e => Except.error e
      | Except.ok d =>
        let computed' := setAdd computed d
        let valid' := computed'.any fun x => actual.contains x
        if valid' then Except.ok valid'
        else verifyExcLoop Hc actual rest computed' valid'

/-- Body of the `try` block: fail immediately when CryptoJS is not loaded,
otherwise run the loop. -/
def verifyBody (cryptoLoaded : Bool) (Hc : ChecksumAlgo → Except String String)
    (actual : List String) (types : List String) : Except String Bool :=
  if cryptoLoaded then verifyExcLoop Hc actual types [] false
  else Except.error "CryptoJS is required and was not found."

/-- User-visible terminal state of a verification attempt: the safe styling,
the mismatch styling, or the generic error styling of the `catch` block. -/
inductive Outcome : Type
  | safeShown
  | invalidShown
  | errorShown
deriving DecidableEq

/-- The `finally` block: get the `downloads` map, delete the entry of
`downloadId` when present, and store the result. -/
def cleanupDownloads {α : Type} (downloadId : Nat) (downloads : List (Nat × α)) :
    List (Nat × α) :=
  if downloads.any fun p => p.1 == downloadId then
    downloads.filter fun p => p.1 != downloadId
  else downloads

/-- Whole `verifyFile` call for claim C8: the try body runs to a match, a
mismatch, or an error, the catch block maps errors to the error styling, and
the finally block always cleans up the tracked download entry. -/
def verifyFileRun {α : Type} (cryptoLoaded : Bool)
    (Hc : ChecksumAlgo → Except String String) (actual : List String)
    (types : List String) (downloadId : Nat) (downloads : List (Nat × α)) :
    Outcome × List (Nat × α) :=
  let outcome :=
    match verifyBody cryptoLoaded Hc actual types with
    | Except.ok true => Outcome.safeShown
    | Except.ok false => Outcome.invalidShown
    | Except.error _ => Outcome.errorShown
  (outcome, cleanupDownloads downloadId downloads)

/-! ### Byte-to-word packing (content.js lines 536-561) -/

/-- CryptoJS word array: a list of 32-bit words plus the number of
significant bytes, as built by `CryptoJS.lib.WordArray.create(words,
byteLength)`. -/
structure WordArray : Type where
  words : List Nat
  sigBytes : Nat
deriving DecidableEq

/-- Word packing of `processChunk` (content.js lines 542-551): for each of
the `ceil(n / 4)` word indices, shift four consecutive bytes into a byte
big-endian 32-bit word; indices past the end of the chunk read as 0
(JavaScript `undefined` coerces to 0 under the shift operators). -/
def toWords (bs : List Nat) : List Nat :=
  (List.range ((bs.length + 3) / 4)).map fun i =>
    (bs.getD (4 * i) 0 <<< 24) ||| (bs.getD (4 * i + 1) 0 <<< 16) |||
      (bs.getD (4 * i + 2) 0 <<< 8) ||| bs.getD (4 * i + 3) 0

/-- The word array handed to the accumulator by `processChunk` (line 552):
the packed words with the byte length of the chunk as authoritative
length. -/
def toWordArray (bs : List Nat) : WordArray :=
  ⟨toWords bs, bs.length⟩

/-- Byte sequence denoted by a word array.  Modelled from the spec: the
hashing primitive consumes 4-byte big-endian words and treats `sigBytes`,
the byte length, as the authoritative length, so byte `j` is the big-endian
lane `j % 4` of word `j / 4`, for `j` below `sigBytes`. -/
def wordArrayBytes (w : WordArray) : List Nat :=
  (List.range w.sigBytes).map fun j =>
    (w.words.getD (j / 4) 0 >>> (24 - 8 * (j % 4))) &&& 255

/-- Word values claimed by the specification: word `i` equals
`b[4i] * 2^24 + b[4i+1] * 2^16 + b[4i+2] * 2^8 + b[4i+3]`, bytes past the
end contributing 0. -/
def specWords (bs : List Nat) : List Nat :=
  (List.range ((bs.length + 3) / 4)).map fun i =>
    bs.getD (4 * i) 0 * 2 ^ 24 + bs.getD (4 * i + 1) 0 * 2 ^ 16 +
      bs.getD (4 * i + 2) 0 * 2 ^ 8 + bs.getD (4 * i + 3) 0

/-! ### Chunked hashing (content.js lines 14, 536-579) -/

/-- Chunk size constant, line 14: 1 MiB. -/
def CHUNK_SIZE : Nat := 1024 * 1024

/-- Incremental hash accumulator.  Modelled from the spec: a mutable hash
state that can be fed data in sequential pieces, where feeding a
concatenation equals feeding the pieces in order, and that finalizes to a
hex digest.  The five CryptoJS algorithms used by the extension (md5, sha1,
sha256, sha384, sha512) are consumed through this contract; the library
itself is not part of the repository. -/
structure StreamingHash (σ : Type) : Type where
  init : σ
  update : σ → List Nat → σ
  finalizeHex : σ → String
  update_nil : ∀ s, update s [] = s
  update_append : ∀ s a b, update s (a ++ b) = update (update s a) b

/-- Effect of `processChunk` (lines 536-561) on the accumulator: pack the
chunk bytes into a word array carrying the exact byte length and feed the
bytes it denotes to the accumulator.  The progress display
(`clone().finalize()`, line 554) duplicates the state and does not change
the live accumulator. -/
def processChunk {σ : Type} (A : StreamingHash σ) (chunk : List Nat) (s : σ) : σ :=
  A.update s (wordArrayBytes (toWordArray chunk))

/-- Chunking loop of `computeHash` (lines 566-576): process the file in
sequential `CHUNK_SIZE` slices from offset 0, each slice clamped to the end
of the file. -/
def computeHashGo {σ : Type} (A : StreamingHash σ) : σ → List Nat → σ
  | s, [] => s
  | s, b :: bs =>
    computeHashGo A (processChunk A ((b :: bs).take CHUNK_SIZE) s)
      ((b :: bs).drop CHUNK_SIZE)
termination_by _ file => file.length
decreasing_by
  simp only [List.length_drop, List.length_cons]
  have hc : CHUNK_SIZE = 1048576 := rfl
  omega

/-- Full `computeHash` (lines 566-579): fresh accumulator, chunked updates,
then finalize to a hex digest. -/
def computeHash {σ : Type} (A : StreamingHash σ) (file : List Nat) : String :=
  A.finalizeHex (computeHashGo A A.init file)

/-- Single-shot computation of the same algorithm over the same bytes: feed
the whole byte sequence to a fresh accumulator once and finalize. -/
def singleShotHash {σ : Type} (A : StreamingHash σ) (file : List Nat) : String :=
  A.finalizeHex (A.update A.init file)

/-! ### SHA-256, modelled from the spec

Modelled from the spec: the extension consumes `CryptoJS.algo.SHA256`, an
implementation of FIPS 180-4 SHA-256, but the CryptoJS library is not part
of the repository.  The definitions below are the standard SHA-256 over a
byte sequence, used to evaluate the digest of the empty file named by the
specification.  All word arithmetic is modulo `2 ^ 32`. -/

/-- Right rotation of a 32-bit word by `n` positions. -/
def rotr32 (n x : Nat) : Nat :=
  (x / 2 ^ n + x % 2 ^ n * 2 ^ (32 - n)) % 2 ^ 32

/-- Choice function `Ch(x, y, z)` of FIPS 180-4. -/
def chFun (x y z : Nat) : Nat := (x &&& y) ^^^ ((x ^^^ 4294967295) &&& z)

/-- Majority function `Maj(x, y, z)` of FIPS 180-4. -/
def majFun (x y z : Nat) : Nat := (x &&& y) ^^^ (x &&& z) ^^^ (y &&& z)

/-- Compression sigma `Σ0`. -/
def bigSigma0 (x : Nat) : Nat := rotr32 2 x ^^^ rotr32 13 x ^^^ rotr32 22 x

/-- Compression sigma `Σ1`. -/
def bigSigma1 (x : Nat) : Nat := rotr32 6 x ^^^ rotr32 11 x ^^^ rotr32 25 x

/-- Schedule sigma `σ0`. -/
def smallSigma0 (x : Nat) : Nat := rotr32 7 x ^^^ rotr32 18 x ^^^ (x >>> 3)

/-- Schedule sigma `σ1`. -/
def smallSigma1 (x : Nat) : Nat := rotr32 17 x ^^^ rotr32 19 x ^^^ (x >>> 10)

/-- The 64 round constants `K` of SHA-256. -/
def K256 : List Nat :=
  [1116352408, 1899447441, 3049323471, 3921009573, 961987163, 1508970993,
   2453635748, 2870763221, 3624381080, 310598401, 607225278, 1426881987,
   1925078388, 2162078206, 2614888103, 3248222580, 3835390401, 4022224774,
   264347078, 604807628, 770255983, 1249150122, 1555081692, 1996064986,
   2554220882, 2821834349, 2952996808, 3210313671, 3336571891, 3584528711,
   113926993, 338241895, 666307205, 773529912, 1294757372, 1396182291,
   1695183700, 1986661051, 2177026350, 2456956037, 2730485921, 2820302411,
   3259730800, 3345764771, 3516065817, 3600352804, 4094571909, 275423344,
   430227734, 506948616, 659060556, 883997877, 958139571, 1322822218,
   1537002063, 1747873779, 1955562222, 2024104815, 2227730452, 2361852424,
   2428436474, 2756734187, 3204031479, 3329325298]

/-- Initial hash state `H(0)` of SHA-256. -/
def H256init : List Nat :=
  [1779033703, 3144134277, 1013904242, 2773480762,
   1359893119, 2600822924, 528734635, 1541459225]

/-- Message padding: append the byte `0x80`, zero bytes up to 56 modulo 64,
and the bit length as an 8-byte big-endian integer. -/
def sha256pad (msg : List Nat) : List Nat :=
  msg ++ 128 :: List.replicate ((119 - msg.length % 64) % 64) 0 ++
    ((List.range 8).map fun i => msg.length * 8 / 2 ^ (56 - 8 * i) % 256)

/-- Grouping of a byte sequence (whose length is a multiple of 4 after
padding) into big-endian 32-bit words. -/
def bytesToWords32 : List Nat → List Nat
  | b0 :: b1 :: b2 :: b3 :: rest =>
    (b0 * 2 ^ 24 + b1 * 2 ^ 16 + b2 * 2 ^ 8 + b3) :: bytesToWords32 rest
  | _ => []

/-- Stepper splitting a word sequence into 16-word blocks; the fuel, set to
the sequence length by `wordBlocks`, always suffices. -/
def wordBlocksGo : Nat → List Nat → List (List Nat)
  | 0, _ => []
  | _ + 1, [] => []
  | fuel + 1, w :: ws => (w :: ws).take 16 :: wordBlocksGo fuel ((w :: ws).drop 16)

/-- Split of a word sequence into 16-word blocks. -/
def wordBlocks (ws : List Nat) : List (List Nat) := wordBlocksGo ws.length ws

/-- Message-schedule extension: append one scheduled word. -/
def scheduleGo : List Nat → Nat → List Nat
  | w, 0 => w
  | w, n + 1 =>
    scheduleGo
      (w ++ [(smallSigma1 (w.getD (w.length - 2) 0) + w.getD (w.length - 7) 0 +
        smallSigma0 (w.getD (w.length - 15) 0) + w.getD (w.length - 16) 0) % 2 ^ 32])
      n

/-- Full 64-word message schedule of one block. -/
def schedule (w : List Nat) : List Nat := scheduleGo w 48

/-- One compression round on the eight working registers. -/
def roundStep (st : List Nat) (kw : Nat × Nat) : List Nat :=
  match st with
  | [a, b, c, d, e, f, g, h] =>
    let t1 := (h + bigSigma1 e + chFun e f g + kw.1 + kw.2) % 2 ^ 32
    let t2 := (bigSigma0 a + majFun a b c) % 2 ^ 32
    [(t1 + t2) % 2 ^ 32, a, b, c, (d + t1) % 2 ^ 32, e, f, g]
  | other => other

/-- Compression of one 16-word block into the running hash state. -/
def compressBlock (h : List Nat) (block : List Nat) : List Nat :=
  let st := (K256.zip (schedule block)).foldl roundStep h
  (h.zip st).map fun p => (p.1 + p.2) % 2 ^ 32

/-- SHA-256 state after hashing a byte sequence: eight 32-bit words. -/
def sha256Words (msg : List Nat) : List Nat :=
  (wordBlocks (bytesToWords32 (sha256pad msg))).foldl compressBlock H256init

/-- Lowercase hex character of a nibble value. -/
def hexNibble (n : Nat) : Char :=
  Char.ofNat (if n < 10 then 48 + n else 87 + n)

/-- Lowercase 8-character hex rendering of a 32-bit word. -/
def wordHex (w : Nat) : List Char :=
  (List.range 8).map fun i => hexNibble (w / 2 ^ (28 - 4 * i) % 16)

/-- Lowercase hex digest of SHA-256 over a byte sequence. -/
def sha256hex (msg : List Nat) : String :=
  String.mk ((sha256Words msg).map wordHex).flatten

/-! ### Concrete instances used by witnesses and counterexamples -/

/-- Digest assignment of the empty file: the SHA-256 digest is the real one,
the other algorithms are never consulted by the scenarios below. -/
def hashOfEmptyFile : ChecksumAlgo → String
  | ChecksumAlgo.sha256 => sha256hex []
  | _ => ""

/-- Digest assignment where md5 yields `d1` and every other algorithm yields
`d2`; used to exercise the verification loops on two declared types. -/
def twoAlgoDigests : ChecksumAlgo → String
  | ChecksumAlgo.md5 => "d1"
  | _ => "d2"

/-- Fallible digest assignment that always succeeds with the empty digest
string; used to exercise the cleanup path on a concrete input. -/
def okDigests : ChecksumAlgo → Except String String :=
  fun _ => Except.ok ""

/-- Concrete streaming-hash instance over byte lists: the state accumulates
the fed bytes and finalization renders one character per byte. -/
def listStreamingHash : StreamingHash (List Nat) where
  init := []
  update := fun s bs => s ++ bs
  finalizeHex := fun s => String.mk (s.map fun b => Char.ofNat (48 + b % 10))
  update_nil := by simp
  update_append := by simp

/-- Text used to refute the mixed-case extraction claim: a lowercase hex
letter, an uppercase hex letter, then thirty zeros, a 32-character
case-insensitive hexadecimal run. -/
def mixedCaseText : List Char := 'a' :: 'A' :: List.replicate 30 '0'

/-! ## Helper lemmas about characters -/

/-- Conversion round trip for valid code points. -/
theorem charOfNat_toNat (n : Nat) (hv : n.isValidChar) : (Char.ofNat n).toNat = n := by
  simp [Char.ofNat, dif_pos hv, Char.ofNatAux, Char.toNat, UInt32.toNat]

/-- Code point of the lower-cased form of an uppercase letter. -/
theorem toLower_toNat_upper (c : Char) (h : 65 ≤ c.toNat ∧ c.toNat ≤ 90) :
    (Char.toLower c).toNat = c.toNat + 32 := by
  unfold Char.toLower
  rw [if_pos (by omega)]
  exact charOfNat_toNat _ (by left; omega)

/-- Lower-casing fixes every character that is not an uppercase letter. -/
theorem toLower_eq_self (c : Char) (h : ¬(65 ≤ c.toNat ∧ c.toNat ≤ 90)) :
    Char.toLower c = c := by
  unfold Char.toLower
  rw [if_neg (by omega)]

/-- Character equality through code points. -/
theorem charEq_iff (c d : Char) : c = d ↔ c.toNat = d.toNat := by
  constructor
  · intro h
    rw [h]
  · intro h
    exact Char.ext (UInt32.ext h)

/-- Lower-casing neither creates nor destroys characters whose code point is
below 65 (such as the hyphen, code 45, and the space, code 32). -/
theorem toLower_eq_small_iff (c p : Char) (hp : p.toNat < 65) :
    Char.toLower c = p ↔ c = p := by
  by_cases h : 65 ≤ c.toNat ∧ c.toNat ≤ 90
  · rw [charEq_iff, charEq_iff, toLower_toNat_upper c h]
    omega
  · rw [toLower_eq_self c h]

/-- Lower-casing is idempotent. -/
theorem toLower_idem (c : Char) : Char.toLower (Char.toLower c) = Char.toLower c := by
  by_cases h : 65 ≤ c.toNat ∧ c.toNat ≤ 90
  · refine toLower_eq_self _ ?_
    rw [toLower_toNat_upper c h]
    omega
  · rw [toLower_eq_self c h, toLower_eq_self c h]

/-! ## Helper lemmas about removeFirst, countCh and setAdd -/

/-- Elements of `removeFirst c l` come from `l`. -/
theorem mem_removeFirst {c x : Char} : ∀ {l : List Char}, x ∈ removeFirst c l → x ∈ l
  | [], h => h
  | y :: ys, h => by
    by_cases hy : y = c
    · simp only [removeFirst, if_pos hy] at h
      exact List.mem_cons_of_mem y h
    · simp only [removeFirst, if_neg hy] at h
      rcases List.mem_cons.mp h with h | h
      · exact h ▸ List.mem_cons_self y ys
      · exact List.mem_cons_of_mem y (mem_removeFirst h)

/-- A list without occurrences of `c` is unchanged by `removeFirst c`. -/
theorem removeFirst_of_not_mem {c : Char} : ∀ {l : List Char}, c ∉ l → removeFirst c l = l
  | [], _ => rfl
  | y :: ys, h => by
    have hy : y ≠ c := fun he => h (he ▸ List.mem_cons_self y ys)
    simp only [removeFirst, if_neg hy]
    rw [removeFirst_of_not_mem fun hc => h (List.mem_cons_of_mem y hc)]

/-- Occurrence counting on a cons cell. -/
theorem countCh_cons (c y : Char) (ys : List Char) :
    countCh c (y :: ys) = (if y = c then 1 else 0) + countCh c ys := by
  by_cases hy : y = c
  · simp [countCh, List.filter_cons, hy, Nat.add_comm]
  · simp [countCh, List.filter_cons, hy]

/-- Zero occurrences means absence. -/
theorem countCh_eq_zero {c : Char} {l : List Char} : countCh c l = 0 ↔ c ∉ l := by
  induction l with
  | nil => simp [countCh]
  | cons y ys ih =>
    rw [countCh_cons]
    by_cases hy : y = c
    · subst hy
      simp
    · simp only [if_neg hy, Nat.zero_add, ih, List.mem_cons]
      constructor
      · intro h hc
        rcases hc with hc | hc
        · exact hy hc.symm
        · exact h hc
      · intro h hc
        exact h (Or.inr hc)

/-- A list with no occurrence of `c` is fixed by filtering out `c`. -/
theorem filter_ne_of_count_zero {c : Char} {l : List Char} (h : countCh c l = 0) :
    (l.filter fun x => !(decide (x = c))) = l := by
  refine List.filter_eq_self.mpr fun a ha => ?_
  have hne : a ≠ c := fun he => (countCh_eq_zero.mp h) (he ▸ ha)
  simp [hne]

/-- With at most one occurrence, removing the first occurrence equals
filtering out all occurrences. -/
theorem removeFirst_eq_filter {c : Char} :
    ∀ {l : List Char}, countCh c l ≤ 1 →
      removeFirst c l = l.filter fun x => !(decide (x = c))
  | [], _ => rfl
  | y :: ys, h => by
    rw [countCh_cons] at h
    by_cases hy : y = c
    · rw [if_pos hy] at h
      subst hy
      have h0 : countCh y ys = 0 := by omega
      simp only [removeFirst, if_pos rfl, List.filter_cons]
      simp [filter_ne_of_count_zero h0]
    · rw [if_neg hy] at h
      have hys := removeFirst_eq_filter (c := c) (l := ys) (by omega)
      simp only [removeFirst, if_neg hy, List.filter_cons]
      have hb : (!(decide (y = c))) = true := by simp [hy]
      rw [hb]
      simp [hys]

/-- With at most two occurrences, removing the first occurrence twice equals
filtering out all occurrences. -/
theorem removeFirst_twice_eq_filter {c : Char} :
    ∀ {l : List Char}, countCh c l ≤ 2 →
      removeFirst c (removeFirst c l) = l.filter fun x => !(decide (x = c))
  | [], _ => rfl
  | y :: ys, h => by
    rw [countCh_cons] at h
    by_cases hy : y = c
    · rw [if_pos hy] at h
      subst hy
      have h1 : countCh y ys ≤ 1 := by omega
      simp only [removeFirst, if_pos rfl, List.filter_cons]
      simp [removeFirst_eq_filter (c := y) h1]
    · rw [if_neg hy] at h
      have hys := removeFirst_twice_eq_filter (c := c) (l := ys) (by omega)
      simp only [removeFirst, if_neg hy, List.filter_cons]
      have hb : (!(decide (y = c))) = true := by simp [hy]
      rw [hb]
      simp only [removeFirst, if_neg hy, if_true, hys]

/-- Filtering out a different character does not change occurrence counts. -/
theorem countCh_filter_ne {c d : Char} (hne : c ≠ d) (l : List Char) :
    countCh c (l.filter fun x => !(decide (x = d))) = countCh c l := by
  induction l with
  | nil => rfl
  | cons y ys ih =>
    rw [List.filter_cons]
    by_cases hy : y = d
    · subst hy
      have hb : (!(decide (y = y))) = false := by simp
      rw [hb]
      simp only [Bool.false_eq_true, if_false, ih, countCh_cons]
      rw [if_neg fun he => hne he.symm]
      omega
    · have hb : (!(decide (y = d))) = true := by simp [hy]
      rw [hb]
      simp only [if_true, countCh_cons, ih]

/-- Lower-casing preserves the number of occurrences of characters with code
point below 65. -/
theorem countCh_map_toLower (p : Char) (hp : p.toNat < 65) (l : List Char) :
    countCh p (l.map Char.toLower) = countCh p l := by
  induction l with
  | nil => rfl
  | cons y ys ih =>
    rw [List.map_cons, countCh_cons, countCh_cons, ih]
    congr 1
    simp [toLower_eq_small_iff y p hp]

/-- Mapping a function that fixes every element is the identity. -/
theorem map_eq_self_of_fix {l : List Char} (h : ∀ x ∈ l, Char.toLower x = x) :
    l.map Char.toLower = l := by
  induction l with
  | nil => rfl
  | cons y ys ih => simp_all

/-! ## Claim C6: canonicalization of algorithm labels -/

/-- Claim C6, counterexample.  The mention `sha - 256` is accepted by
`REGEXP_CHECKSUM_ALGO` (separator `\s*-?\s*`), but because the JavaScript
`replace` calls strip only the first occurrence, the label reaching the
`switch` of `verifyFile` is `sha 256`, which still contains a space, differs
from the fully stripped form `sha256`, and is dropped even though its
canonical form under the claimed rule is an enumeration member. -/
theorem canonLabel_counterexample :
    canonTypeLabel (canonAlgoMention ("sha - 256").toList) ≠
      specCanonMention ("sha - 256").toList ∧
    parseAlgo (canonTypeLabel (canonAlgoMention ("sha - 256").toList)) = none ∧
    parseAlgo (specCanonMention ("sha - 256").toList) = some ChecksumAlgo.sha256 := by
  refine ⟨by decide, by decide, by decide⟩

/-- Claim C6 (amended): the label compared against the enumeration is the
mention lower-cased with the first hyphen removed during extraction and one
further hyphen and one space removed in `verifyFile`; for mentions with at
most two hyphens and at most one space this coincides with stripping all
internal hyphens and spaces.  Moreover the dispatch accepts exactly the five
enumeration members, so any mention whose canonical form is not a member is
dropped, not substituted. -/
theorem canonLabel_single_separator :
    (∀ m : List Char, countCh '-' m ≤ 2 → countCh ' ' m ≤ 1 →
      canonTypeLabel (canonAlgoMention m) = specCanonMention m) ∧
    (∀ t : List Char, (parseAlgo t).isSome = true ↔
      t ∈ [CHECKSUM_TYPE_MD5.toList, CHECKSUM_TYPE_SHA1.toList,
        CHECKSUM_TYPE_SHA256.toList, CHECKSUM_TYPE_SHA384.toList,
        CHECKSUM_TYPE_SHA512.toList]) := by
  constructor
  · intro m hd hs
    unfold canonTypeLabel canonAlgoMention specCanonMention
    have hfix : (removeFirst '-' (m.map Char.toLower)).map Char.toLower
        = removeFirst '-' (m.map Char.toLower) :=
      map_eq_self_of_fix fun x hx => by
        rcases List.mem_map.mp (mem_removeFirst hx) with ⟨y, _, rfl⟩
        exact toLower_idem y
    rw [hfix]
    have hd2 : countCh '-' (m.map Char.toLower) ≤ 2 := by
      rw [countCh_map_toLower '-' (by decide) m]
      exact hd
    rw [show removeFirst '-' (removeFirst '-' (m.map Char.toLower))
        = (m.map Char.toLower).filter fun x => !(decide (x = '-')) from
      removeFirst_twice_eq_filter hd2]
    have hs1 : countCh ' ' ((m.map Char.toLower).filter fun x => !(decide (x = '-'))) ≤ 1 := by
      rw [countCh_filter_ne (by decide), countCh_map_toLower ' ' (by decide) m]
      exact hs
    rw [removeFirst_eq_filter hs1, List.filter_filter]
    refine List.filter_congr fun a _ => ?_
    rw [Bool.and_comm]
  · intro t
    unfold parseAlgo
    constructor
    · intro h
      by_cases h1 : t = CHECKSUM_TYPE_MD5.toList
      · simp [h1]
      by_cases h2 : t = CHECKSUM_TYPE_SHA1.toList
      · simp [h2]
      by_cases h3 : t = CHECKSUM_TYPE_SHA256.toList
      · simp [h3]
      by_cases h4 : t = CHECKSUM_TYPE_SHA384.toList
      · simp [h4]
      by_cases h5 : t = CHECKSUM_TYPE_SHA512.toList
      · simp [h5]
      rw [if_neg h1, if_neg h2, if_neg h3, if_neg h4, if_neg h5] at h
      simp at h
    · intro h
      simp only [List.mem_cons, List.not_mem_nil, or_false] at h
      rcases h with h | h | h | h | h <;> subst h <;> decide

/-- Claim C6, witness: the mention `SHA-256` has one hyphen and no space,
and its compared label is the fully stripped form. -/
theorem canonLabel_single_separator_witness :
    canonTypeLabel (canonAlgoMention ("SHA-256").toList) =
      specCanonMention ("SHA-256").toList :=
  canonLabel_single_separator.1 ("SHA-256").toList (by decide) (by decide)

/-! ## Helper lemmas about set accumulation -/

/-- Membership after a set insertion. -/
theorem mem_setAdd {α : Type} [DecidableEq α] {l : List α} {a x : α} :
    x ∈ setAdd l a ↔ x ∈ l ∨ x = a := by
  by_cases h : a ∈ l
  · simp only [setAdd, if_pos h]
    constructor
    · exact Or.inl
    · rintro (hx | rfl)
      exacts [hx, h]
  · simp [setAdd, if_neg h]

/-- Set insertion preserves the absence of duplicates. -/
theorem setAdd_nodup {α : Type} [DecidableEq α] {l : List α} (h : l.Nodup) (a : α) :
    (setAdd l a).Nodup := by
  by_cases ha : a ∈ l
  · simpa [setAdd, ha] using h
  · rw [setAdd, if_neg ha, List.nodup_append]
    exact ⟨h, List.nodup_singleton a,
      fun x hx hxa => ha ((List.mem_singleton.mp hxa) ▸ hx)⟩

/-- Set insertion as a finite-set insertion. -/
theorem setAdd_toFinset {α : Type} [DecidableEq α] (l : List α) (a : α) :
    (setAdd l a).toFinset = insert a l.toFinset := by
  by_cases ha : a ∈ l
  · rw [setAdd, if_pos ha]
    exact (Finset.insert_eq_self.mpr (List.mem_toFinset.mpr ha)).symm
  · rw [setAdd, if_neg ha, List.toFinset_append]
    have h1 : ([a] : List α).toFinset = {a} := by simp
    rw [h1, Finset.union_comm, ← Finset.insert_eq]

/-- Folding set insertions preserves the absence of duplicates. -/
theorem foldl_setAdd_nodup {α : Type} [DecidableEq α] :
    ∀ (l acc : List α), acc.Nodup → (l.foldl setAdd acc).Nodup
  | [], _, h => h
  | e :: l, acc, h => foldl_setAdd_nodup l (setAdd acc e) (setAdd_nodup h e)

/-- Folding set insertions unions the underlying finite sets. -/
theorem foldl_setAdd_toFinset {α : Type} [DecidableEq α] :
    ∀ (l acc : List α), (l.foldl setAdd acc).toFinset = acc.toFinset ∪ l.toFinset
  | [], acc => by simp
  | e :: l, acc => by
    rw [List.foldl_cons, foldl_setAdd_toFinset l (setAdd acc e), setAdd_toFinset]
    simp [Finset.insert_union, Finset.union_insert]

/-- The code-side diversity test agrees with the distinct-character count. -/
theorem diversity_iff (s : String) : diversity s 10 = true ↔ 11 ≤ distinctCount s := by
  unfold diversity distinctCount
  rw [decide_eq_true_eq]
  have hnd := foldl_setAdd_nodup s.toList [] List.nodup_nil
  have hfs := foldl_setAdd_toFinset s.toList []
  have hlen : (s.toList.foldl setAdd []).length = s.toList.toFinset.card := by
    rw [← List.toFinset_card_of_nodup hnd, hfs]
    simp
  omega

/-! ## Helper lemmas about the candidate filters -/

/-- The content.js filter as a single-predicate fold. -/
theorem filter_eq_filterSet (S : List String) :
    filter S = filterSet (fun s => CHECKSUM_VALUE_SIZE.contains s.length && hasMix s) S := by
  unfold filter filterSet
  congr 1
  funext acc elem
  by_cases h1 : CHECKSUM_VALUE_SIZE.contains elem.length <;>
    by_cases h2 : hasMix elem <;> simp [h1, h2]

/-- The part_000 filter as a single-predicate fold. -/
theorem filterDiversity_eq_filterSet (S : List String) :
    filterDiversity S = filterSet
      (fun s => CHECKSUM_VALUE_SIZE.contains s.length && (hasMix s && diversity s 10)) S := by
  unfold filterDiversity filterSet
  congr 1
  funext acc elem
  by_cases h1 : CHECKSUM_VALUE_SIZE.contains elem.length <;>
    by_cases h2 : hasMix elem <;> by_cases h3 : diversity elem 10 <;> simp [h1, h2, h3]

/-- Membership in the fold underlying `filterSet`. -/
theorem mem_filterSet_foldl {p : String → Bool} :
    ∀ {S acc : List String} {x : String},
      x ∈ S.foldl (fun acc e => if p e then setAdd acc e else acc) acc ↔
        x ∈ acc ∨ (x ∈ S ∧ p x = true)
  | [], acc, x => by simp
  | e :: S, acc, x => by
    rw [List.foldl_cons, mem_filterSet_foldl (S := S)]
    by_cases hpe : p e = true
    · rw [if_pos hpe, mem_setAdd]
      constructor
      · rintro ((hx | rfl) | ⟨hS, hp⟩)
        · exact Or.inl hx
        · exact Or.inr ⟨List.mem_cons_self _ _, hpe⟩
        · exact Or.inr ⟨List.mem_cons_of_mem _ hS, hp⟩
      · rintro (hx | ⟨hmem, hp⟩)
        · exact Or.inl (Or.inl hx)
        · rcases List.mem_cons.mp hmem with rfl | hS
          · exact Or.inl (Or.inr rfl)
          · exact Or.inr ⟨hS, hp⟩
    · rw [if_neg hpe]
      constructor
      · rintro (hx | ⟨hS, hp⟩)
        · exact Or.inl hx
        · exact Or.inr ⟨List.mem_cons_of_mem e hS, hp⟩
      · rintro (hx | ⟨hmem, hp⟩)
        · exact Or.inl hx
        · rcases List.mem_cons.mp hmem with rfl | hS
          · exact absurd hp hpe
          · exact Or.inr ⟨hS, hp⟩

/-- Membership characterization of `filterSet`. -/
theorem mem_filterSet {p : String → Bool} {S : List String} {x : String} :
    x ∈ filterSet p S ↔ x ∈ S ∧ p x = true := by
  unfold filterSet
  rw [mem_filterSet_foldl]
  simp

/-- The output of `filterSet` is duplicate free. -/
theorem filterSet_nodup {p : String → Bool} :
    ∀ {S acc : List String}, acc.Nodup →
      (S.foldl (fun acc e => if p e then setAdd acc e else acc) acc).Nodup
  | [], _, h => h
  | e :: S, acc, h => by
    rw [List.foldl_cons]
    by_cases hpe : p e = true
    · rw [if_pos hpe]
      exact filterSet_nodup (setAdd_nodup h e)
    · rw [if_neg hpe]
      exact filterSet_nodup h

/-- A duplicate-free list of accepted elements passes through the fold
untouched. -/
theorem foldl_setAdd_fixed {p : String → Bool} :
    ∀ {S acc : List String}, (∀ s ∈ S, p s = true) → (acc ++ S).Nodup →
      S.foldl (fun acc e => if p e then setAdd acc e else acc) acc = acc ++ S
  | [], acc, _, _ => by simp
  | e :: S, acc, hp, hnd => by
    have hpe : p e = true := hp e (List.mem_cons_self e S)
    have hne : e ∉ acc := fun he =>
      (List.nodup_append.mp hnd).2.2 he (List.mem_cons_self e S)
    rw [List.foldl_cons, if_pos hpe, setAdd, if_neg hne]
    have hassoc : acc ++ e :: S = (acc ++ [e]) ++ S := by
      rw [List.append_assoc, List.singleton_append]
    rw [foldl_setAdd_fixed (fun s hs => hp s (List.mem_cons_of_mem e hs))
      (hassoc ▸ hnd), hassoc]

/-- `filterSet` is idempotent. -/
theorem filterSet_idem {p : String → Bool} (S : List String) :
    filterSet p (filterSet p S) = filterSet p S := by
  have hpass : ∀ s ∈ filterSet p S, p s = true := fun s hs => (mem_filterSet.mp hs).2
  have hnd : (filterSet p S).Nodup := filterSet_nodup List.nodup_nil
  have h := @foldl_setAdd_fixed p (filterSet p S) [] hpass (by simpa)
  simpa [filterSet] using h

/-! ## Claim C4: membership characterization of the filters -/

/-- Claim C4: for every input set, the diversity-filter variant keeps exactly
the strings of the input whose length is one of 32, 40, 56, 64, 96, 128,
which contain an alphabetic hex character and a decimal digit, and which have
at least 11 distinct characters; the content.js variant keeps exactly those
satisfying the first two conditions; in particular every string of length 33
and every 64-character all-digit string is excluded, for every input set. -/
theorem filter_membership (S : List String) (s : String) :
    (s ∈ filterDiversity S ↔ s ∈ S ∧ s.length ∈ CHECKSUM_VALUE_SIZE ∧
      ((∃ c ∈ s.toList, isHexLetterB c = true) ∧ (∃ c ∈ s.toList, isDigitB c = true)) ∧
      11 ≤ distinctCount s) ∧
    (s ∈ filter S ↔ s ∈ S ∧ s.length ∈ CHECKSUM_VALUE_SIZE ∧
      ((∃ c ∈ s.toList, isHexLetterB c = true) ∧ (∃ c ∈ s.toList, isDigitB c = true))) ∧
    (s.length = 33 → s ∉ filterDiversity S ∧ s ∉ filter S) ∧
    (s.length = 64 → (∀ c ∈ s.toList, isDigitB c = true) →
      s ∉ filterDiversity S ∧ s ∉ filter S) := by
  have hmix : hasMix s = true ↔
      (∃ c ∈ s.toList, isHexLetterB c = true) ∧ (∃ c ∈ s.toList, isDigitB c = true) := by
    simp [hasMix, Bool.and_eq_true, List.any_eq_true]
  have hdiv : s ∈ filterDiversity S ↔ s ∈ S ∧ s.length ∈ CHECKSUM_VALUE_SIZE ∧
      ((∃ c ∈ s.toList, isHexLetterB c = true) ∧ (∃ c ∈ s.toList, isDigitB c = true)) ∧
      11 ≤ distinctCount s := by
    rw [filterDiversity_eq_filterSet, mem_filterSet, Bool.and_eq_true, Bool.and_eq_true,
      hmix, diversity_iff]
    simp [and_assoc]
  have hfil : s ∈ filter S ↔ s ∈ S ∧ s.length ∈ CHECKSUM_VALUE_SIZE ∧
      ((∃ c ∈ s.toList, isHexLetterB c = true) ∧ (∃ c ∈ s.toList, isDigitB c = true)) := by
    rw [filter_eq_filterSet, mem_filterSet, Bool.and_eq_true, hmix]
    simp [and_assoc]
  refine ⟨hdiv, hfil, ?_, ?_⟩
  · intro h33
    constructor
    · intro hmem
      have := (hdiv.mp hmem).2.1
      rw [h33] at this
      exact absurd this (by decide)
    · intro hmem
      have := (hfil.mp hmem).2.1
      rw [h33] at this
      exact absurd this (by decide)
  · intro _ hdig
    have hnoletter : ¬∃ c ∈ s.toList, isHexLetterB c = true := by
      rintro ⟨c, hc, hlet⟩
      have h1 := hdig c hc
      simp only [isHexLetterB, isDigitB, decide_eq_true_eq] at hlet h1
      omega
    constructor
    · intro hmem
      exact hnoletter (hdiv.mp hmem).2.2.1.1
    · intro hmem
      exact hnoletter (hfil.mp hmem).2.2.1

/-- Claim C4, witness: a 33-character string is rejected by the diversity
variant and a 64-character all-digit string is rejected by the content.js
variant, at a concrete input set. -/
theorem filter_membership_witness :
    ("000000000000000000000000000000000" ∉
      filterDiversity ["000000000000000000000000000000000"]) ∧
    ("0000000000000000000000000000000000000000000000000000000000000000" ∉
      filter ["0000000000000000000000000000000000000000000000000000000000000000"]) :=
  ⟨((filter_membership ["000000000000000000000000000000000"]
      "000000000000000000000000000000000").2.2.1 (by decide)).1,
   ((filter_membership ["0000000000000000000000000000000000000000000000000000000000000000"]
      "0000000000000000000000000000000000000000000000000000000000000000").2.2.2
      (by decide) (by decide)).2⟩

/-! ## Claim C10: idempotence of the filters -/

/-- Claim C10: both filter variants are idempotent on every input set. -/
theorem filter_idempotent (S : List String) :
    filter (filter S) = filter S ∧
      filterDiversity (filterDiversity S) = filterDiversity S := by
  constructor
  · rw [filter_eq_filterSet (filter S), filter_eq_filterSet S, filterSet_idem]
  · rw [filterDiversity_eq_filterSet (filterDiversity S),
      filterDiversity_eq_filterSet S, filterSet_idem]

/-! ## Claim C2: early exit of the content.js verification loop -/

/-- Freshly inserted elements are present. -/
theorem mem_setAdd_self {α : Type} [DecidableEq α] (l : List α) (a : α) :
    a ∈ setAdd l a := mem_setAdd.mpr (Or.inr rfl)

/-- Loop-level early exit: starting from any state that has not yet matched,
a declared type whose digest is among the extracted values ends the loop with
`valid` true and with exactly one more attempt. -/
theorem verifyFileLoop_early {H : ChecksumAlgo → String} {actual : List String}
    {t : String} {post : List String} {a : ChecksumAlgo}
    (hparse : parseAlgo (canonTypeLabel t.toList) = some a)
    (hmatch : actual.contains (H a) = true) :
    ∀ (pre computed : List String) (attempts : List ChecksumAlgo),
      (verifyFileLoop H actual pre computed false attempts).valid = false →
      verifyFileLoop H actual (pre ++ t :: post) computed false attempts =
        ⟨true, setAdd (verifyFileLoop H actual pre computed false attempts).computed (H a),
          (verifyFileLoop H actual pre computed false attempts).attempts ++ [a]⟩
  | [], computed, attempts, _ => by
    have hval : (setAdd computed (H a)).any (fun x => actual.contains x) = true :=
      List.any_eq_true.mpr ⟨H a, mem_setAdd_self computed (H a), hmatch⟩
    simp only [List.nil_append, verifyFileLoop, hparse, hval, if_true]
  | p :: ps, computed, attempts, hvalid => by
    simp only [List.cons_append, verifyFileLoop] at hvalid ⊢
    cases hp : parseAlgo (canonTypeLabel p.toList) with
    | none =>
      simp only [hp] at hvalid ⊢
      exact verifyFileLoop_early hparse hmatch ps computed attempts hvalid
    | some b =>
      simp only [hp] at hvalid ⊢
      by_cases hv : (setAdd computed (H b)).any (fun x => actual.contains x) = true
      · exfalso
        rw [if_pos hv] at hvalid
        have hfalse : ((setAdd computed (H b)).any fun x => actual.contains x) = false :=
          hvalid
        rw [hv] at hfalse
        exact Bool.noConfusion hfalse
      · rw [if_neg hv] at hvalid ⊢
        rw [Bool.not_eq_true] at hv
        rw [hv] at hvalid ⊢
        exact verifyFileLoop_early hparse hmatch ps _ _ hvalid

/-- Claim C2, counterexample.  In the part_000 variant the first declared
type md5 already yields a digest among the extracted values, yet the loop
still creates an accumulator for the following declared type sha1 and hashes
the file with it: the attempts list contains both algorithms.  The outcome
does report `valid` true. -/
theorem verifyFilePart_no_early_exit :
    (["d1"] : List String).contains (twoAlgoDigests ChecksumAlgo.md5) = true ∧
    (verifyFilePart twoAlgoDigests ["d1"] ["md5", "sha1"]).valid = true ∧
    (verifyFilePart twoAlgoDigests ["d1"] ["md5", "sha1"]).attempts =
      [ChecksumAlgo.md5, ChecksumAlgo.sha1] := by
  refine ⟨by decide, by decide, by decide⟩

/-- Claim C2 (amended): the content.js variant of `verifyFile` stops at the
first matching declared type: when no earlier type matched and the declared
type `t` parses to an algorithm whose digest is among the extracted values,
the result is `valid` true, and the attempts (accumulator creations and file
hashings) are exactly those of the earlier types plus `t` — nothing after
`t` is attempted.  The part_000 variant instead hashes every declared type
before comparing, as the counterexample shows, though it still reports
`valid` true. -/
theorem verifyFile_early_exit (H : ChecksumAlgo → String) (actual : List String)
    (pre : List String) (t : String) (post : List String) (a : ChecksumAlgo)
    (hparse : parseAlgo (canonTypeLabel t.toList) = some a)
    (hmatch : actual.contains (H a) = true)
    (hpre : (verifyFile H actual pre).valid = false) :
    verifyFile H actual (pre ++ t :: post) =
      ⟨true, setAdd (verifyFile H actual pre).computed (H a),
        (verifyFile H actual pre).attempts ++ [a]⟩ := by
  unfold verifyFile at hpre ⊢
  exact verifyFileLoop_early hparse hmatch pre [] [] hpre

/-- Claim C2, witness: with declared types sha1 then md5 then sha512, where
sha1 does not match and md5 does, the loop stops after md5. -/
theorem verifyFile_early_exit_witness :
    verifyFile twoAlgoDigests ["d1"] (["sha1"] ++ "md5" :: ["sha512"]) =
      ⟨true, setAdd (verifyFile twoAlgoDigests ["d1"] ["sha1"]).computed
          (twoAlgoDigests ChecksumAlgo.md5),
        (verifyFile twoAlgoDigests ["d1"] ["sha1"]).attempts ++ [ChecksumAlgo.md5]⟩ :=
  verifyFile_early_exit twoAlgoDigests ["d1"] ["sha1"] "md5" ["sha512"]
    ChecksumAlgo.md5 (by decide) (by decide) (by decide)

/-! ## Claim C7: unrecognized algorithm labels are skipped -/

/-- Loop-level skip: a declared type whose canonical label the switch does
not recognize leaves the content.js loop state untouched. -/
theorem verifyFileLoop_skip {H : ChecksumAlgo → String} {actual : List String}
    {bad : String} {post : List String}
    (hbad : parseAlgo (canonTypeLabel bad.toList) = none) :
    ∀ (pre computed : List String) (valid : Bool) (attempts : List ChecksumAlgo),
      verifyFileLoop H actual (pre ++ bad :: post) computed valid attempts =
        verifyFileLoop H actual (pre ++ post) computed valid attempts
  | [], computed, valid, attempts => by
    simp only [List.nil_append, verifyFileLoop, hbad]
  | p :: ps, computed, valid, attempts => by
    simp only [List.cons_append, verifyFileLoop]
    cases hp : parseAlgo (canonTypeLabel p.toList) with
    | none =>
      simp only [hp]
      exact verifyFileLoop_skip hbad ps computed valid attempts
    | some b =>
      simp only [hp]
      by_cases hv : (setAdd computed (H b)).any (fun x => actual.contains x) = true
      · rw [if_pos hv, if_pos hv]
      · rw [if_neg hv, if_neg hv]
        exact verifyFileLoop_skip hbad ps _ _ _

/-- Loop-level skip for the part_000 variant. -/
theorem verifyFilePartLoop_skip {H : ChecksumAlgo → String}
    {bad : String} {post : List String}
    (hbad : parseAlgo (canonTypeLabel bad.toList) = none) :
    ∀ (pre computed : List String) (attempts : List ChecksumAlgo),
      verifyFilePartLoop H (pre ++ bad :: post) computed attempts =
        verifyFilePartLoop H (pre ++ post) computed attempts
  | [], computed, attempts => by
    simp only [List.nil_append, verifyFilePartLoop, hbad]
  | p :: ps, computed, attempts => by
    simp only [List.cons_append, verifyFilePartLoop]
    cases hp : parseAlgo (canonTypeLabel p.toList) with
    | none =>
      simp only [hp]
      exact verifyFilePartLoop_skip hbad ps computed attempts
    | some b =>
      simp only [hp]
      exact verifyFilePartLoop_skip hbad ps _ _

/-- Claim C7: an unrecognized declared type anywhere in the list is skipped
and the verification attempt proceeds exactly as if the label were absent,
in both variants: every other declared type is still hashed and compared,
and no error outcome arises from the malformed label. -/
theorem verifyFile_skips_unknown (H : ChecksumAlgo → String) (actual : List String)
    (pre : List String) (bad : String) (post : List String)
    (hbad : parseAlgo (canonTypeLabel bad.toList) = none) :
    verifyFile H actual (pre ++ bad :: post) = verifyFile H actual (pre ++ post) ∧
    verifyFilePart H actual (pre ++ bad :: post) = verifyFilePart H actual (pre ++ post) := by
  constructor
  · unfold verifyFile
    exact verifyFileLoop_skip hbad pre [] false []
  · unfold verifyFilePart
    rw [verifyFilePartLoop_skip hbad pre [] []]

/-- Claim C7, witness: the unrecognized label `crc32` between `md5` and
`sha1` changes nothing in either variant. -/
theorem verifyFile_skips_unknown_witness :
    verifyFile twoAlgoDigests ["x"] (["md5"] ++ "crc32" :: ["sha1"]) =
      verifyFile twoAlgoDigests ["x"] (["md5"] ++ ["sha1"]) ∧
    verifyFilePart twoAlgoDigests ["x"] (["md5"] ++ "crc32" :: ["sha1"]) =
      verifyFilePart twoAlgoDigests ["x"] (["md5"] ++ ["sha1"]) :=
  verifyFile_skips_unknown twoAlgoDigests ["x"] ["md5"] "crc32" ["sha1"] (by decide)

/-! ## Claim C9: a correct SHA-256 digest among the values yields a match -/

/-- Claim C9, counterexample.  The digest the claim names for the empty file
has 63 characters and is not the SHA-256 digest of the empty byte sequence
(it drops the final `5`), so a verification of the empty file against
exactly that extracted value reports `valid` false rather than true. -/
theorem sha256_empty_digest_wrong :
    hashOfEmptyFile ChecksumAlgo.sha256 ≠
      "e3b0c44298fc1c149afbf4c8996fb92427ae41e4649b934ca495991b7852b85" ∧
    (verifyFile hashOfEmptyFile
      ["e3b0c44298fc1c149afbf4c8996fb92427ae41e4649b934ca495991b7852b85"]
      ["SHA-256"]).valid = false := by
  refine ⟨by decide, by decide⟩

/-- Claim C9 (amended): the SHA-256 digest of the empty file is the
64-character `e3b0...b855`, and whenever the declared types are exactly
`SHA-256` and the extracted values contain the SHA-256 digest of the
supplied file, `verifyFile` reports `valid` true. -/
theorem verifyFile_sha256_match :
    sha256hex [] = "e3b0c44298fc1c149afbf4c8996fb92427ae41e4649b934ca495991b7852b855" ∧
    ∀ (H : ChecksumAlgo → String) (actual : List String),
      actual.contains (H ChecksumAlgo.sha256) = true →
      (verifyFile H actual ["SHA-256"]).valid = true := by
  constructor
  · decide
  · intro H actual hmatch
    have hparse : parseAlgo (canonTypeLabel ("SHA-256").toList) =
        some ChecksumAlgo.sha256 := by decide
    have hval : (setAdd [] (H ChecksumAlgo.sha256)).any
        (fun x => actual.contains x) = true :=
      List.any_eq_true.mpr
        ⟨H ChecksumAlgo.sha256, mem_setAdd_self [] (H ChecksumAlgo.sha256), hmatch⟩
    simp only [verifyFile, verifyFileLoop, hparse, hval, if_true]

/-- Claim C9, witness: the empty file verified against a value set holding
its true SHA-256 digest matches. -/
theorem verifyFile_sha256_match_witness :
    (verifyFile hashOfEmptyFile [sha256hex []] ["SHA-256"]).valid = true :=
  verifyFile_sha256_match.2 hashOfEmptyFile [sha256hex []] (by decide)

/-! ## Claim C8: guaranteed cleanup of the tracked download entry -/

/-- After filtering out the key, no entry with that key can be found. -/
theorem find?_filter_ne_none {α : Type} (downloadId : Nat) :
    ∀ dl : List (Nat × α),
      (dl.filter fun p => p.1 != downloadId).find? (fun p => p.1 == downloadId) = none
  | [] => rfl
  | e :: dl => by
    by_cases he : e.1 = downloadId
    · have hb : (e.1 != downloadId) = false := by simp [he]
      rw [List.filter_cons, hb]
      simp only [Bool.false_eq_true, if_false]
      exact find?_filter_ne_none downloadId dl
    · have hb : (e.1 != downloadId) = true := by simp [he]
      rw [List.filter_cons, hb]
      simp only [if_true]
      rw [List.find?_cons_of_neg _ (by simp [he])]
      exact find?_filter_ne_none downloadId dl

/-- Filtering out one key does not change lookups of other keys. -/
theorem find?_filter_ne_other {α : Type} (downloadId k : Nat) (hk : k ≠ downloadId) :
    ∀ dl : List (Nat × α),
      (dl.filter fun p => p.1 != downloadId).find? (fun p => p.1 == k) =
        dl.find? (fun p => p.1 == k)
  | [] => rfl
  | e :: dl => by
    by_cases he : e.1 = downloadId
    · have hb : (e.1 != downloadId) = false := by simp [he]
      rw [List.filter_cons, hb]
      simp only [Bool.false_eq_true, if_false]
      rw [find?_filter_ne_other downloadId k hk dl,
        List.find?_cons_of_neg _ (by simp [he]; exact fun h => hk h.symm)]
    · have hb : (e.1 != downloadId) = true := by simp [he]
      rw [List.filter_cons, hb]
      simp only [if_true]
      by_cases hek : e.1 = k
      · rw [List.find?_cons_of_pos _ (by simp [hek]), List.find?_cons_of_pos _ (by simp [hek])]
      · rw [List.find?_cons_of_neg _ (by simp [hek]), List.find?_cons_of_neg _ (by simp [hek])]
        exact find?_filter_ne_other downloadId k hk dl

/-- When the key is absent, it also cannot be found. -/
theorem find?_none_of_not_any {α : Type} (downloadId : Nat) (dl : List (Nat × α))
    (h : (dl.any fun p => p.1 == downloadId) = false) :
    dl.find? (fun p => p.1 == downloadId) = none := by
  rw [List.find?_eq_none]
  intro x hx hpx
  have : dl.any (fun p => p.1 == downloadId) = true := List.any_eq_true.mpr ⟨x, hx, hpx⟩
  rw [h] at this
  exact Bool.noConfusion this

/-- Claim C8: on every terminal path of `verifyFile` — a match, exhaustion
with no match, a missing CryptoJS primitive, or a digest-computation error —
the entry keyed by the download identifier is removed from the shared
downloads map by the guaranteed-cleanup step, and entries of every other
identifier are untouched. -/
theorem verifyFileRun_cleanup {α : Type} (cryptoLoaded : Bool)
    (Hc : ChecksumAlgo → Except String String) (actual types : List String)
    (downloadId : Nat) (downloads : List (Nat × α)) :
    ((verifyFileRun cryptoLoaded Hc actual types downloadId downloads).2.find?
      (fun p => p.1 == downloadId) = none) ∧
    (∀ k : Nat, k ≠ downloadId →
      (verifyFileRun cryptoLoaded Hc actual types downloadId downloads).2.find?
        (fun p => p.1 == k) = downloads.find? (fun p => p.1 == k)) := by
  have hsnd : (verifyFileRun cryptoLoaded Hc actual types downloadId downloads).2 =
      cleanupDownloads downloadId downloads := rfl
  rw [hsnd]
  unfold cleanupDownloads
  by_cases hany : (downloads.any fun p => p.1 == downloadId) = true
  · rw [if_pos hany]
    exact ⟨find?_filter_ne_none downloadId downloads,
      fun k hk => find?_filter_ne_other downloadId k hk downloads⟩
  · rw [if_neg hany]
    exact ⟨find?_none_of_not_any downloadId downloads (Bool.not_eq_true _ ▸ hany),
      fun _ _ => rfl⟩

/-- Claim C8, witness: a concrete two-entry map with a crypto error path
still loses exactly the entry of the verified identifier. -/
theorem verifyFileRun_cleanup_witness :
    ((verifyFileRun false okDigests [] [] 1 [(1, "a"), (2, "b")]).2.find?
      (fun p => p.1 == 1) = none) ∧
    ((verifyFileRun false okDigests [] [] 1 [(1, "a"), (2, "b")]).2.find?
      (fun p => p.1 == 2) = [(1, "a"), (2, "b")].find? (fun p => p.1 == 2)) :=
  ⟨(verifyFileRun_cleanup false okDigests [] [] 1 [(1, "a"), (2, "b")]).1,
   (verifyFileRun_cleanup false okDigests [] [] 1 [(1, "a"), (2, "b")]).2 2 (by decide)⟩

/-! ## Claim C3: byte-to-word packing of processChunk -/

/-- Masking with 255 is reduction modulo 256. -/
theorem land_255_eq_mod (x : Nat) : x &&& 255 = x % 256 := by
  have h := Nat.and_pow_two_sub_one_eq_mod x 8
  norm_num at h
  exact h

/-- Bitwise or of a multiple of `2 ^ k` with a value below `2 ^ k` is their
sum: the two operands occupy disjoint bit ranges. -/
theorem lor_high_low (k m r : Nat) (h : r < 2 ^ k) :
    (m * 2 ^ k) ||| r = m * 2 ^ k + r := by
  apply Nat.eq_of_testBit_eq
  intro i
  rw [Nat.testBit_lor]
  by_cases hik : i < k
  · have e1 : m * 2 ^ k = m * 2 ^ (k - i) * 2 ^ i := by
      rw [mul_assoc, ← pow_add]
      congr 2
      omega
    have e2 : m * 2 ^ (k - i) = m * 2 ^ (k - i - 1) * 2 := by
      rw [mul_assoc]
      congr 1
      rw [← pow_succ]
      congr 1
      omega
    have hm : (m * 2 ^ k).testBit i = false := by
      rw [Nat.testBit_to_div_mod, e1, Nat.mul_div_cancel _ (Nat.two_pow_pos i), e2,
        Nat.mul_mod_left]
      simp
    have hsum : (m * 2 ^ k + r).testBit i = r.testBit i := by
      rw [Nat.testBit_to_div_mod, Nat.testBit_to_div_mod, e1, Nat.add_comm,
        Nat.add_mul_div_right _ _ (Nat.two_pow_pos i), e2,
        Nat.add_mul_mod_self_right]
    rw [hm, hsum]
    simp
  · have hr : r.testBit i = false :=
      Nat.testBit_lt_two_pow
        (lt_of_lt_of_le h (Nat.pow_le_pow_right (by omega) (by omega)))
    have hsum : (m * 2 ^ k + r).testBit i = (m * 2 ^ k).testBit i := by
      rw [Nat.testBit_to_div_mod, Nat.testBit_to_div_mod]
      have e1 : (2 : Nat) ^ i = 2 ^ k * 2 ^ (i - k) := by
        rw [← pow_add]
        congr 1
        omega
      rw [e1, ← Nat.div_div_eq_div_mul, ← Nat.div_div_eq_div_mul]
      have e2 : (m * 2 ^ k + r) / 2 ^ k = m * 2 ^ k / 2 ^ k := by
        rw [Nat.mul_div_cancel _ (Nat.two_pow_pos k), mul_comm,
          Nat.mul_add_div (Nat.two_pow_pos k), Nat.div_eq_of_lt h]
        omega
      rw [e2]
    rw [hr, hsum]
    simp

/-- The packed word of four bytes equals the big-endian base-256 value. -/
theorem pack_word_eq (a b c d : Nat) (ha : a < 256) (hb : b < 256)
    (hc : c < 256) (hd : d < 256) :
    (a <<< 24) ||| (b <<< 16) ||| (c <<< 8) ||| d =
      a * 2 ^ 24 + b * 2 ^ 16 + c * 2 ^ 8 + d := by
  have e8 : (2 : Nat) ^ 8 = 256 := by norm_num
  have e16 : (2 : Nat) ^ 16 = 65536 := by norm_num
  have e24 : (2 : Nat) ^ 24 = 16777216 := by norm_num
  rw [Nat.shiftLeft_eq, Nat.shiftLeft_eq, Nat.shiftLeft_eq]
  have h1 : a * 2 ^ 24 ||| b * 2 ^ 16 = a * 2 ^ 24 + b * 2 ^ 16 :=
    lor_high_low 24 a _ (by omega)
  rw [h1]
  have eh2 : a * 2 ^ 24 + b * 2 ^ 16 = (a * 2 ^ 8 + b) * 2 ^ 16 := by ring
  have h2 : (a * 2 ^ 8 + b) * 2 ^ 16 ||| c * 2 ^ 8 =
      (a * 2 ^ 8 + b) * 2 ^ 16 + c * 2 ^ 8 :=
    lor_high_low 16 _ _ (by omega)
  rw [eh2, h2]
  have eh3 : (a * 2 ^ 8 + b) * 2 ^ 16 + c * 2 ^ 8 =
      (a * 2 ^ 16 + b * 2 ^ 8 + c) * 2 ^ 8 := by ring
  have h3 : (a * 2 ^ 16 + b * 2 ^ 8 + c) * 2 ^ 8 ||| d =
      (a * 2 ^ 16 + b * 2 ^ 8 + c) * 2 ^ 8 + d :=
    lor_high_low 8 _ _ (by omega)
  rw [eh3, h3]

/-- Bytes read through `getD` from a byte list stay below 256, the default 0
included (JavaScript `undefined` entries coerce to 0). -/
theorem getD_lt_256 {bs : List Nat} (hb : ∀ b ∈ bs, b < 256) (j : Nat) :
    bs.getD j 0 < 256 := by
  by_cases h : j < bs.length
  · rw [List.getD_eq_getElem bs 0 h]
    exact hb _ (List.getElem_mem h)
  · rw [List.getD_eq_default bs 0 (by omega)]
    omega

/-- Entry of a mapped range list. -/
theorem getD_map_range {f : Nat → Nat} {W i : Nat} (h : i < W) :
    ((List.range W).map f).getD i 0 = f i := by
  rw [List.getD_eq_getElem _ _ (by simp [h])]
  simp

/-- The packing loop of `processChunk` produces exactly the words the
specification claims: big-endian base-256 combinations of four consecutive
bytes. -/
theorem toWords_eq_specWords {bs : List Nat} (hb : ∀ b ∈ bs, b < 256) :
    toWords bs = specWords bs := by
  unfold toWords specWords
  refine List.map_congr_left fun i _ => ?_
  exact pack_word_eq _ _ _ _ (getD_lt_256 hb _) (getD_lt_256 hb _)
    (getD_lt_256 hb _) (getD_lt_256 hb _)

/-- Big-endian byte extraction from a packed base-256 word. -/
theorem extract_byte (A B C D : Nat) (hA : A < 256) (hB : B < 256)
    (hC : C < 256) (hD : D < 256) :
    ((A * 2 ^ 24 + B * 2 ^ 16 + C * 2 ^ 8 + D) >>> 24) &&& 255 = A ∧
    ((A * 2 ^ 24 + B * 2 ^ 16 + C * 2 ^ 8 + D) >>> 16) &&& 255 = B ∧
    ((A * 2 ^ 24 + B * 2 ^ 16 + C * 2 ^ 8 + D) >>> 8) &&& 255 = C ∧
    ((A * 2 ^ 24 + B * 2 ^ 16 + C * 2 ^ 8 + D) >>> 0) &&& 255 = D := by
  rw [Nat.shiftRight_eq_div_pow, Nat.shiftRight_eq_div_pow,
    Nat.shiftRight_eq_div_pow, Nat.shiftRight_eq_div_pow,
    land_255_eq_mod, land_255_eq_mod, land_255_eq_mod, land_255_eq_mod]
  have e8 : (2 : Nat) ^ 8 = 256 := by norm_num
  have e16 : (2 : Nat) ^ 16 = 65536 := by norm_num
  have e24 : (2 : Nat) ^ 24 = 16777216 := by norm_num
  have e0 : (2 : Nat) ^ 0 = 1 := by norm_num
  rw [e8, e16, e24, e0]
  refine ⟨by omega, by omega, by omega, by omega⟩

/-- Round trip: the word array built by `processChunk` denotes exactly the
chunk bytes — the byte length, not the word count, delimits the data, so a
chunk whose length is not a multiple of 4 is represented exactly. -/
theorem wordArray_roundtrip {bs : List Nat} (hb : ∀ b ∈ bs, b < 256) :
    wordArrayBytes (toWordArray bs) = bs := by
  unfold wordArrayBytes toWordArray
  apply List.ext_getElem
  · simp
  intro j hj1 hj2
  have hjlen : j < bs.length := by simpa using hj2
  simp only [List.getElem_map, List.getElem_range]
  have hdiv : j / 4 < (bs.length + 3) / 4 := by omega
  have hw : (toWords bs).getD (j / 4) 0 =
      (bs.getD (4 * (j / 4)) 0 <<< 24) ||| (bs.getD (4 * (j / 4) + 1) 0 <<< 16) |||
        (bs.getD (4 * (j / 4) + 2) 0 <<< 8) ||| bs.getD (4 * (j / 4) + 3) 0 := by
    unfold toWords
    exact getD_map_range hdiv
  rw [hw, pack_word_eq _ _ _ _ (getD_lt_256 hb _) (getD_lt_256 hb _)
    (getD_lt_256 hb _) (getD_lt_256 hb _)]
  have hA := getD_lt_256 hb (4 * (j / 4))
  have hB := getD_lt_256 hb (4 * (j / 4) + 1)
  have hC := getD_lt_256 hb (4 * (j / 4) + 2)
  have hD := getD_lt_256 hb (4 * (j / 4) + 3)
  have hmod : j % 4 = 0 ∨ j % 4 = 1 ∨ j % 4 = 2 ∨ j % 4 = 3 := by omega
  rcases hmod with h4 | h4 | h4 | h4
  · have hsh : 24 - 8 * (j % 4) = 24 := by omega
    rw [hsh, (extract_byte _ _ _ _ hA hB hC hD).1]
    have hidx : 4 * (j / 4) = j := by omega
    rw [hidx, List.getD_eq_getElem bs 0 hjlen]
  · have hsh : 24 - 8 * (j % 4) = 16 := by omega
    rw [hsh, (extract_byte _ _ _ _ hA hB hC hD).2.1]
    have hidx : 4 * (j / 4) + 1 = j := by omega
    rw [hidx, List.getD_eq_getElem bs 0 hjlen]
  · have hsh : 24 - 8 * (j % 4) = 8 := by omega
    rw [hsh, (extract_byte _ _ _ _ hA hB hC hD).2.2.1]
    have hidx : 4 * (j / 4) + 2 = j := by omega
    rw [hidx, List.getD_eq_getElem bs 0 hjlen]
  · have hsh : 24 - 8 * (j % 4) = 0 := by omega
    rw [hsh, (extract_byte _ _ _ _ hA hB hC hD).2.2.2]
    have hidx : 4 * (j / 4) + 3 = j := by omega
    rw [hidx, List.getD_eq_getElem bs 0 hjlen]

/-- Claim C3: `processChunk` packs the chunk bytes into `ceil(n / 4)` 4-byte
big-endian words — word `i` equals
`b[4i] * 2^24 + b[4i+1] * 2^16 + b[4i+2] * 2^8 + b[4i+3]` with bytes past the
end contributing 0 — and hands the hashing primitive the byte length as the
authoritative length, so the chunk is represented exactly with no padding of
its own. -/
theorem processChunk_word_packing (bs : List Nat) (hb : ∀ b ∈ bs, b < 256) :
    toWords bs = specWords bs ∧
    (toWordArray bs).sigBytes = bs.length ∧
    wordArrayBytes (toWordArray bs) = bs :=
  ⟨toWords_eq_specWords hb, rfl, wordArray_roundtrip hb⟩

/-- Claim C3, witness: a 5-byte chunk, not a multiple of the word size, is
packed and denoted exactly. -/
theorem processChunk_word_packing_witness :
    toWords [0, 1, 127, 128, 255] = specWords [0, 1, 127, 128, 255] ∧
    (toWordArray [0, 1, 127, 128, 255]).sigBytes = ([0, 1, 127, 128, 255] : List Nat).length ∧
    wordArrayBytes (toWordArray [0, 1, 127, 128, 255]) = [0, 1, 127, 128, 255] :=
  processChunk_word_packing [0, 1, 127, 128, 255] (by decide)

/-! ## Claim C1: chunked hashing equals single-shot hashing -/

/-- Loop-level equivalence: feeding a file through the chunking loop equals
one update with the whole byte sequence, for every accumulator satisfying
the streaming contract. -/
theorem computeHashGo_eq {σ : Type} (A : StreamingHash σ) :
    ∀ (n : Nat) (file : List Nat), file.length ≤ n → (∀ b ∈ file, b < 256) →
      ∀ s : σ, computeHashGo A s file = A.update s file := by
  intro n
  induction n with
  | zero =>
    intro file hlen _ s
    have hnil : file = [] := List.length_eq_zero.mp (by omega)
    subst hnil
    rw [A.update_nil]
    simp [computeHashGo]
  | succ n ih =>
    intro file hlen hb s
    cases file with
    | nil =>
      rw [A.update_nil]
      simp [computeHashGo]
    | cons b bs =>
      simp only [computeHashGo]
      have hchunk : ∀ x ∈ (b :: bs).take CHUNK_SIZE, x < 256 :=
        fun x hx => hb x (List.mem_of_mem_take hx)
      have hpc : processChunk A ((b :: bs).take CHUNK_SIZE) s =
          A.update s ((b :: bs).take CHUNK_SIZE) := by
        unfold processChunk
        rw [wordArray_roundtrip hchunk]
      rw [hpc]
      have hdb : ∀ x ∈ (b :: bs).drop CHUNK_SIZE, x < 256 :=
        fun x hx => hb x (List.drop_subset _ _ hx)
      have hdlen : ((b :: bs).drop CHUNK_SIZE).length ≤ n := by
        have hc : CHUNK_SIZE = 1048576 := rfl
        simp only [List.length_drop, List.length_cons]
        simp only [List.length_cons] at hlen
        omega
      rw [ih _ hdlen hdb, ← A.update_append, List.take_append_drop]

/-- Claim C1: for every algorithm consumed through the incremental
accumulator contract — in particular the five supported CryptoJS algorithms
md5, sha1, sha256, sha384 and sha512 — and for every finite byte sequence,
`computeHash`, which feeds the bytes to a fresh accumulator in sequential
1 MiB chunks via `processChunk` and then finalizes, returns the same digest
as a single-shot computation over the same bytes; the byte length is
unconstrained, so this covers the boundary cases of length 0, `CHUNK_SIZE`
and `CHUNK_SIZE + 1`. -/
theorem computeHash_eq_singleShot {σ : Type} (A : StreamingHash σ)
    (file : List Nat) (hb : ∀ b ∈ file, b < 256) :
    computeHash A file = singleShotHash A file := by
  unfold computeHash singleShotHash
  rw [computeHashGo_eq A file.length file le_rfl hb]

/-- Claim C1, witness: a concrete accumulator instance and a concrete byte
sequence. -/
theorem computeHash_eq_singleShot_witness :
    computeHash listStreamingHash [104, 105, 255] =
      singleShotHash listStreamingHash [104, 105, 255] :=
  computeHash_eq_singleShot listStreamingHash [104, 105, 255] (by decide)

/-! ## Claim C5: checksum-value extraction versus the specification pattern -/

/-- Claim C5, counterexample.  The 32-character case-insensitive hex run
`aA000...0` is a maximal run of at least 32 hexadecimal characters, so the
specification pattern extracts it (lower-cased); but each alternative of
`REGEXP_CHECKSUM_VALUE` is single-case, so the code extracts nothing from
this text: the mixed-case run is not captured whole. -/
theorem extract_mixed_case_counterexample :
    extractChecksumValues mixedCaseText ≠ specExtractChecksumValues mixedCaseText := by
  decide

/-- Lowercase-class membership implies membership in the case-insensitive
class. -/
theorem lc_imp_ci {c : Char} (h : isLcHexB c = true) : isCiHexB c = true := by
  simp [isCiHexB, h]

/-- Without uppercase hex letters the case-insensitive class coincides with
the lowercase class. -/
theorem ci_eq_lc_of_noUp {c : Char} (h : ¬(65 ≤ c.toNat ∧ c.toNat ≤ 70)) :
    isCiHexB c = isLcHexB c := by
  unfold isCiHexB isLcHexB isUcHexB
  by_cases h1 : (97 ≤ c.toNat ∧ c.toNat ≤ 102) ∨ (48 ≤ c.toNat ∧ c.toNat ≤ 57)
  · simp [h1]
  · have h2 : ¬((65 ≤ c.toNat ∧ c.toNat ≤ 70) ∨ (48 ≤ c.toNat ∧ c.toNat ≤ 57)) := by
      rintro (hx | hx)
      · exact h hx
      · exact h1 (Or.inr hx)
    simp [h1, h2]

/-- Without uppercase hex letters the uppercase alternative never matches a
longer prefix than the lowercase one. -/
theorem uc_le_lc_takeWhile {s : List Char}
    (h : ∀ c ∈ s, ¬(65 ≤ c.toNat ∧ c.toNat ≤ 70)) :
    (List.takeWhile isUcHexB s).length ≤ (List.takeWhile isLcHexB s).length := by
  induction s with
  | nil => simp
  | cons c rest ih =>
    rw [List.takeWhile_cons, List.takeWhile_cons]
    by_cases hu : isUcHexB c = true
    · have hl : isLcHexB c = true := by
        have hc := h c (List.mem_cons_self c rest)
        simp only [isUcHexB, decide_eq_true_eq] at hu
        simp only [isLcHexB, decide_eq_true_eq]
        omega
      rw [if_pos hu, if_pos hl]
      have hrec := ih fun x hx => h x (List.mem_cons_of_mem c hx)
      simp only [List.length_cons]
      omega
    · rw [if_neg hu]
      simp

/-- Without uppercase hex letters the case-insensitive prefix equals the
lowercase prefix. -/
theorem takeWhile_ci_eq_lc {s : List Char}
    (h : ∀ c ∈ s, ¬(65 ≤ c.toNat ∧ c.toNat ≤ 70)) :
    List.takeWhile isCiHexB s = List.takeWhile isLcHexB s := by
  induction s with
  | nil => rfl
  | cons c rest ih =>
    rw [List.takeWhile_cons, List.takeWhile_cons,
      ci_eq_lc_of_noUp (h c (List.mem_cons_self c rest))]
    by_cases hl : isLcHexB c = true
    · rw [if_pos hl, if_pos hl, ih fun x hx => h x (List.mem_cons_of_mem c hx)]
    · rw [if_neg hl, if_neg hl]

/-- Any fuel at least the text length gives the stable value of the match
scanner. -/
theorem jsScanGo_fuel : ∀ (fuel : Nat) (s : List Char), s.length ≤ fuel →
    jsScanGo fuel s = jsScan s := by
  intro fuel
  induction fuel using Nat.strong_induction_on with
  | _ fuel ih =>
    intro s hs
    cases s with
    | nil =>
      cases fuel with
      | zero => rfl
      | succ f => rfl
    | cons c rest =>
      cases fuel with
      | zero => simp at hs
      | succ f =>
        have hrest : rest.length ≤ f := by
          simp only [List.length_cons] at hs
          omega
        show jsScanGo (f + 1) (c :: rest) = jsScanGo (c :: rest).length (c :: rest)
        simp only [jsScanGo, List.length_cons]
        by_cases h1 : 32 ≤ (List.takeWhile isLcHexB (c :: rest)).length
        · rw [if_pos h1, if_pos h1]
          congr 1
          have hlen : ((c :: rest).drop
              (List.takeWhile isLcHexB (c :: rest)).length).length ≤ rest.length := by
            simp only [List.length_drop, List.length_cons]
            omega
          rw [ih f (by omega) _ (le_trans hlen hrest),
            ih rest.length (by omega) _ hlen]
        · rw [if_neg h1, if_neg h1]
          by_cases h2 : 32 ≤ (List.takeWhile isUcHexB (c :: rest)).length
          · rw [if_pos h2, if_pos h2]
            congr 1
            have hlen : ((c :: rest).drop
                (List.takeWhile isUcHexB (c :: rest)).length).length ≤ rest.length := by
              simp only [List.length_drop, List.length_cons]
              omega
            rw [ih f (by omega) _ (le_trans hlen hrest),
              ih rest.length (by omega) _ hlen]
          · rw [if_neg h2, if_neg h2]
            rw [ih f (by omega) rest hrest]
            rfl

/-- One-step unfolding of `jsScan` on a nonempty text. -/
theorem jsScan_cons (c : Char) (rest : List Char) :
    jsScan (c :: rest) =
      if 32 ≤ (List.takeWhile isLcHexB (c :: rest)).length then
        List.takeWhile isLcHexB (c :: rest) ::
          jsScan ((c :: rest).drop (List.takeWhile isLcHexB (c :: rest)).length)
      else if 32 ≤ (List.takeWhile isUcHexB (c :: rest)).length then
        List.takeWhile isUcHexB (c :: rest) ::
          jsScan ((c :: rest).drop (List.takeWhile isUcHexB (c :: rest)).length)
      else jsScan rest := by
  show jsScanGo (c :: rest).length (c :: rest) = _
  simp only [List.length_cons, jsScanGo]
  by_cases h1 : 32 ≤ (List.takeWhile isLcHexB (c :: rest)).length
  · rw [if_pos h1, if_pos h1]
    congr 1
    refine jsScanGo_fuel rest.length _ ?_
    simp only [List.length_drop, List.length_cons]
    omega
  · rw [if_neg h1, if_neg h1]
    by_cases h2 : 32 ≤ (List.takeWhile isUcHexB (c :: rest)).length
    · rw [if_pos h2, if_pos h2]
      congr 1
      refine jsScanGo_fuel rest.length _ ?_
      simp only [List.length_drop, List.length_cons]
      omega
    · rw [if_neg h2, if_neg h2]
      exact jsScanGo_fuel rest.length rest le_rfl

/-- Any fuel at least the text length gives the stable value of the run
splitter. -/
theorem ciRunsGo_fuel : ∀ (fuel : Nat) (s : List Char), s.length ≤ fuel →
    ciRunsGo fuel s = ciRuns s := by
  intro fuel
  induction fuel using Nat.strong_induction_on with
  | _ fuel ih =>
    intro s hs
    cases s with
    | nil =>
      cases fuel with
      | zero => rfl
      | succ f => rfl
    | cons c rest =>
      cases fuel with
      | zero => simp at hs
      | succ f =>
        have hrest : rest.length ≤ f := by
          simp only [List.length_cons] at hs
          omega
        show ciRunsGo (f + 1) (c :: rest) = ciRunsGo (c :: rest).length (c :: rest)
        simp only [ciRunsGo, List.length_cons]
        by_cases hc : isCiHexB c = true
        · rw [if_pos hc, if_pos hc]
          congr 1
          have hlen1 : 1 ≤ (List.takeWhile isCiHexB (c :: rest)).length := by
            rw [List.takeWhile_cons, if_pos hc]
            simp
          have hlen : ((c :: rest).drop
              (List.takeWhile isCiHexB (c :: rest)).length).length ≤ rest.length := by
            simp only [List.length_drop, List.length_cons]
            omega
          rw [ih f (by omega) _ (le_trans hlen hrest),
            ih rest.length (by omega) _ hlen]
        · rw [if_neg hc, if_neg hc]
          rw [ih f (by omega) rest hrest]
          rfl

/-- One-step unfolding of `ciRuns` on a nonempty text. -/
theorem ciRuns_cons (c : Char) (rest : List Char) :
    ciRuns (c :: rest) =
      if isCiHexB c = true then
        List.takeWhile isCiHexB (c :: rest) ::
          ciRuns ((c :: rest).drop (List.takeWhile isCiHexB (c :: rest)).length)
      else ciRuns rest := by
  show ciRunsGo (c :: rest).length (c :: rest) = _
  simp only [List.length_cons, ciRunsGo]
  by_cases hc : isCiHexB c = true
  · rw [if_pos hc, if_pos hc]
    congr 1
    have hlen1 : 1 ≤ (List.takeWhile isCiHexB (c :: rest)).length := by
      rw [List.takeWhile_cons, if_pos hc]
      simp
    refine ciRunsGo_fuel rest.length _ ?_
    simp only [List.length_drop, List.length_cons]
    omega
  · rw [if_neg hc, if_neg hc]
    exact ciRunsGo_fuel rest.length rest le_rfl

/-- Elements of the runs produced by `ciRuns` lie in the case-insensitive
hex class. -/
theorem ciRuns_all_ci_fuel : ∀ (n : Nat) (s : List Char), s.length ≤ n →
    ∀ r ∈ ciRuns s, ∀ c ∈ r, isCiHexB c = true := by
  intro n
  induction n using Nat.strong_induction_on with
  | _ n ih =>
    intro s hs r hr c hc
    cases s with
    | nil => simp [ciRuns, ciRunsGo] at hr
    | cons x rest =>
      rw [ciRuns_cons] at hr
      have hlen : rest.length < n := by
        simp only [List.length_cons] at hs
        omega
      by_cases hx : isCiHexB x = true
      · rw [if_pos hx] at hr
        rcases List.mem_cons.mp hr with rfl | hr2
        · exact List.mem_takeWhile_imp hc
        · have hlen1 : 1 ≤ (List.takeWhile isCiHexB (x :: rest)).length := by
            rw [List.takeWhile_cons, if_pos hx]
            simp
          have hld : ((x :: rest).drop
              (List.takeWhile isCiHexB (x :: rest)).length).length ≤ rest.length := by
            simp only [List.length_drop, List.length_cons]
            omega
          exact ih rest.length hlen _ hld r hr2 c hc
      · rw [if_neg hx] at hr
        exact ih rest.length hlen rest le_rfl r hr c hc

/-- Scanning may start anywhere inside a short case-insensitive run: when
the run at the head is shorter than 32 the scanner finds nothing in it and
ends up right after it. -/
theorem jsScan_skip_short : ∀ (n : Nat) (s : List Char), s.length ≤ n →
    (∀ c ∈ s, ¬(65 ≤ c.toNat ∧ c.toNat ≤ 70)) →
    (List.takeWhile isCiHexB s).length < 32 →
    jsScan s = jsScan (s.drop (List.takeWhile isCiHexB s).length) := by
  intro n
  induction n using Nat.strong_induction_on with
  | _ n ih =>
    intro s hs hup hshort
    cases s with
    | nil => rfl
    | cons c rest =>
      by_cases hc : isCiHexB c = true
      · have hrun : List.takeWhile isCiHexB (c :: rest) =
            c :: List.takeWhile isCiHexB rest := by
          rw [List.takeWhile_cons, if_pos hc]
        have hupr : ∀ x ∈ rest, ¬(65 ≤ x.toNat ∧ x.toNat ≤ 70) :=
          fun x hx => hup x (List.mem_cons_of_mem c hx)
        have hlcw : List.takeWhile isLcHexB (c :: rest) =
            List.takeWhile isCiHexB (c :: rest) := (takeWhile_ci_eq_lc hup).symm
        have h1 : ¬(32 ≤ (List.takeWhile isLcHexB (c :: rest)).length) := by
          rw [hlcw]
          omega
        have h2 : ¬(32 ≤ (List.takeWhile isUcHexB (c :: rest)).length) := by
          have huc := uc_le_lc_takeWhile hup
          omega
        rw [jsScan_cons, if_neg h1, if_neg h2]
        have hshortr : (List.takeWhile isCiHexB rest).length < 32 := by
          rw [hrun, List.length_cons] at hshort
          omega
        have hlen : rest.length < n := by
          simp only [List.length_cons] at hs
          omega
        rw [ih rest.length hlen rest le_rfl hupr hshortr, hrun, List.length_cons,
          List.drop_succ_cons]
      · have hrun : List.takeWhile isCiHexB (c :: rest) = [] := by
          rw [List.takeWhile_cons, if_neg hc]
        rw [hrun]
        simp

/-- Main equivalence for texts without uppercase hex letters: the scanner
finds exactly the maximal case-insensitive runs of length at least 32. -/
theorem jsScan_eq_runs : ∀ (n : Nat) (s : List Char), s.length ≤ n →
    (∀ c ∈ s, ¬(65 ≤ c.toNat ∧ c.toNat ≤ 70)) →
    jsScan s = (ciRuns s).filter fun r => decide (32 ≤ r.length) := by
  intro n
  induction n using Nat.strong_induction_on with
  | _ n ih =>
    intro s hs hup
    cases s with
    | nil => rfl
    | cons c rest =>
      have hlen : rest.length < n := by
        simp only [List.length_cons] at hs
        omega
      by_cases hc : isCiHexB c = true
      · have hrun : List.takeWhile isCiHexB (c :: rest) =
            c :: List.takeWhile isCiHexB rest := by
          rw [List.takeWhile_cons, if_pos hc]
        have hlen1 : 1 ≤ (List.takeWhile isCiHexB (c :: rest)).length := by
          rw [hrun]
          simp
        have hlcw : List.takeWhile isLcHexB (c :: rest) =
            List.takeWhile isCiHexB (c :: rest) := (takeWhile_ci_eq_lc hup).symm
        have hupd : ∀ x ∈ (c :: rest).drop
            (List.takeWhile isCiHexB (c :: rest)).length, ¬(65 ≤ x.toNat ∧ x.toNat ≤ 70) :=
          fun x hx => hup x (List.drop_subset _ _ hx)
        have hld : ((c :: rest).drop
            (List.takeWhile isCiHexB (c :: rest)).length).length ≤ rest.length := by
          simp only [List.length_drop, List.length_cons]
          omega
        by_cases h32 : 32 ≤ (List.takeWhile isCiHexB (c :: rest)).length
        · rw [jsScan_cons, ciRuns_cons, if_pos hc, List.filter_cons,
            decide_eq_true h32]
          have h1 : 32 ≤ (List.takeWhile isLcHexB (c :: rest)).length := by
            rw [hlcw]
            exact h32
          rw [if_pos h1]
          simp only [if_true]
          rw [hlcw]
          congr 1
          exact ih rest.length hlen _ hld hupd
        · rw [ciRuns_cons, if_pos hc, List.filter_cons, decide_eq_false h32]
          simp only [Bool.false_eq_true, if_false]
          rw [jsScan_skip_short (c :: rest).length (c :: rest) le_rfl hup (by omega)]
          exact ih rest.length hlen _ hld hupd
      · have hlc : ¬(isLcHexB c = true) := by
          rw [← ci_eq_lc_of_noUp (hup c (List.mem_cons_self c rest))]
          exact hc
        have huc : ¬(isUcHexB c = true) := by
          intro hu
          exact hc (by simp [isCiHexB, hu])
        have htwlc : List.takeWhile isLcHexB (c :: rest) = [] := by
          rw [List.takeWhile_cons, if_neg hlc]
        have htwuc : List.takeWhile isUcHexB (c :: rest) = [] := by
          rw [List.takeWhile_cons, if_neg huc]
        rw [jsScan_cons, ciRuns_cons, if_neg hc, htwlc, htwuc]
        simp only [List.length_nil]
        rw [if_neg (by omega), if_neg (by omega)]
        exact ih rest.length hlen rest le_rfl
          fun x hx => hup x (List.mem_cons_of_mem c hx)

/-- Claim C5 (amended): on any text without uppercase hex letters (each
regex alternative is single-case, so this is the regime in which the code
extraction can agree with the claimed case-insensitive reading), the set of
extracted checksum values equals the specification-side set: every maximal
hex run of length at least 32, lower-cased.  The counterexample shows the
equality fails on mixed-case runs. -/
theorem extract_no_upper_eq_spec (s : List Char) (h : noUpperHexB s = true) :
    extractChecksumValues s = specExtractChecksumValues s := by
  have hprop : ∀ c ∈ s, ¬(65 ≤ c.toNat ∧ c.toNat ≤ 70) := by
    intro c hc
    have hx := List.all_eq_true.mp h c hc
    simp only [Bool.not_eq_true', decide_eq_false_iff_not] at hx
    exact hx
  unfold extractChecksumValues specExtractChecksumValues
  rw [jsScan_eq_runs s.length s le_rfl hprop]
  congr 1
  refine List.map_congr_left fun r hr => ?_
  have hci : ∀ c ∈ r, isCiHexB c = true :=
    ciRuns_all_ci_fuel s.length s le_rfl r (List.mem_of_mem_filter hr)
  apply removeFirst_of_not_mem
  intro hmem
  rcases List.mem_map.mp hmem with ⟨y, hy, hlow⟩
  have hyd : y = '-' := (toLower_eq_small_iff y '-' (by decide)).mp hlow
  subst hyd
  exact absurd (hci _ hy) (by decide)

/-- Claim C5, witness: a lowercase text holding one 36-character hex run
among other characters. -/
theorem extract_no_upper_eq_spec_witness :
    extractChecksumValues ("x 0123456789abcdef0123456789abcdef0123 y").toList =
      specExtractChecksumValues ("x 0123456789abcdef0123456789abcdef0123 y").toList :=
  extract_no_upper_eq_spec ("x 0123456789abcdef0123456789abcdef0123 y").toList (by decide)
